import Mathlib

/-!
Verification of the go-erdos MSSQL dump engine (`internal/db/mssql-driver.go`
and the `db` package's naming helpers) against its specification.

Shallow embedding conventions:
* Go strings are Lean `String`s; Go `[]T` is `List T`; Go `int` is `Int`.
* Go maps are association lists (`List (key × value)`); a list that
  represents a Go map has pairwise-distinct keys (`NodupKeys`), which is a
  hypothesis of the theorems where it matters.  Map iteration is modelled
  as iteration in insertion order (Go's map order is arbitrary; every
  property proved here is independent of that order).
* Fallible Go functions returning `(T, error)` are modelled with `Except`
  (exactly one side is set, as in the source) or with an explicit pair.
* The database is abstracted away: each embedded function takes the rows a
  query would deliver as an explicit list argument, exactly as the Go code
  receives them from `rows.Next()`/`rows.Scan`.
-/

namespace GoErdos

/-- The single-quote character, written via its code point. -/
def quoteChar : Char := Char.ofNat 39

/-- One-character string holding a single quote. -/
def quoteStr : String := String.singleton quoteChar

/-- ASCII lower-casing, character by character (kernel-computable stand-in
for `strings.ToLower` on the ASCII type names this code compares). -/
def toLowerStr (s : String) : String :=
  ⟨s.data.map Char.toLower⟩

/-- `strings.TrimSpace`: drop leading and trailing whitespace. -/
def trimSpace (s : String) : String :=
  ⟨((s.data.dropWhile Char.isWhitespace).reverse.dropWhile Char.isWhitespace).reverse⟩

/-- Error codes of `internal/apperrors/app-error.go` (`ErrCode` constants). -/
inductive ErrCode where
  | ErrUnknown
  | ErrInvalidInput
  | ErrConfigNotFound
  | ErrUnsupportedOption
  | ErrOperationTimeout
  | ErrDBConnection
  | ErrDBQuery
  | ErrSchemaDump
  | ErrDataDump
  | ErrConstraintDump
  | ErrTransaction
  | ErrUnsupportedDatabase
  | ErrFileWrite
  | ErrFileRead
  | ErrCLIParsing
  | ErrConcurrency
  | ErrResourceExhausted
  | ErrMigrateProcess
  deriving DecidableEq, Repr

/-- `apperrors.AppError`: an error code together with its message (the
wrapped inner error is not needed by any claim and is not modelled). -/
structure AppError where
  code : ErrCode
  message : String
  deriving DecidableEq, Repr

/-- `apperrors.New(code, message, err)` restricted to code and message. -/
def apperrorsNew (code : ErrCode) (message : String) : AppError :=
  ⟨code, message⟩

/-- A table identifier in canonical `[schema].[table]` form
(`type TableName string` in the `db` package). -/
abbrev TableName := String

/-- `strings.Join(elems, sep)`. -/
def joinSep (sep : String) : List String → String
  | [] => ""
  | [x] => x
  | x :: y :: rest => x ++ sep ++ joinSep sep (y :: rest)

/-- `FormatObjectName(parts...)`: wrap every part in brackets, join with `.`. -/
def FormatObjectName (parts : List String) : String :=
  joinSep (".") (parts.map (fun part => "[" ++ part ++ "]"))

/-- `NewTableName(schema, table)`: empty schema defaults to `dbo`. -/
def NewTableName (schema table : String) : TableName :=
  let schema := if schema = "" then "dbo" else schema
  FormatObjectName [schema, table]

/-- Take characters up to (excluding) the first `]`; return them and the
rest of the input (which starts with `]` when one was present). -/
def takeUntilRB : List Char → List Char × List Char
  | [] => ([], [])
  | c :: cs =>
    if c = ']' then ([], c :: cs)
    else
      let p := takeUntilRB cs
      (c :: p.1, p.2)

/-- Matching of the anchored pattern from `GetParts`: an opening bracket,
one or more non-`]` characters, the exact infix between the groups, one or
more non-`]` characters, a closing bracket, end of input.  Returns the two
capture groups on success. -/
def getPartsAux (cs : List Char) : Option (List Char × List Char) :=
  match cs with
  | '[' :: rest =>
    let p := takeUntilRB rest
    if p.1 = [] then none
    else
      match p.2 with
      | ']' :: '.' :: '[' :: rest2 =>
        let q := takeUntilRB rest2
        if q.1 = [] then none
        else
          match q.2 with
          | [']'] => some (p.1, q.1)
          | _ => none
      | _ => none
  | _ => none

/-- `TableName.GetParts()`: parse the canonical form back into
`(schema, table)`; both components are empty when the stored string does
not match the pattern. -/
def GetParts (t : TableName) : String × String :=
  match getPartsAux t.data with
  | some p => (⟨p.1⟩, ⟨p.2⟩)
  | none => ("", "")

/-- `TableName.IsEmpty()`: the parsed table part is blank after trimming. -/
def IsEmpty (t : TableName) : Bool :=
  trimSpace (GetParts t).2 = ""

/-! ### Association-list operations standing for Go map operations -/

/-- Read a key (first binding wins; there is at most one under
`NodupKeys`). -/
def lookupKey {α : Type} : List (TableName × α) → TableName → Option α
  | [], _ => none
  | (k, v) :: rest, key => if k = key then some v else lookupKey rest key

/-- `m[k] = v`: replace the binding of `k`, or append one. -/
def setVal {α : Type} : List (TableName × α) → TableName → α → List (TableName × α)
  | [], k, v => [(k, v)]
  | (k', v') :: rest, k, v =>
    if k' = k then (k, v) :: rest else (k', v') :: setVal rest k v

/-- `delete(m, k)`: drop the binding of `k`. -/
def eraseKey {α : Type} : List (TableName × α) → TableName → List (TableName × α)
  | [], _ => []
  | (k', v') :: rest, k =>
    if k' = k then rest else (k', v') :: eraseKey rest k

/-- The keys of an association list. -/
def keysOf {α : Type} (m : List (TableName × α)) : List TableName :=
  m.map Prod.fst

/-- The association list represents a Go map: keys are pairwise distinct. -/
abbrev NodupKeys {α : Type} (m : List (TableName × α)) : Prop :=
  (keysOf m).Nodup

/-- `type DependencyTree map[TableName][]TableName`. -/
abbrev DependencyTree := List (TableName × List TableName)

/-- Go's `m[k]` read on a `DependencyTree` (zero value `nil` when absent). -/
def depsGet (m : DependencyTree) (k : TableName) : List TableName :=
  (lookupKey m k).getD []

/-! ### Column metadata and type formatting -/

/-- `columnDef` of `mssql-driver.go`: one row of column metadata. -/
structure columnDef where
  schema : String
  table : String
  columnName : String
  columnPosition : Int
  dataType : String
  maxLength : Int
  precision : Int
  scale : Int
  isNullable : Bool
  isIdentity : Bool
  isComputed : Bool
  deriving DecidableEq, Repr

/-- `formatColumnType`: character types get `(length)` when the length is
positive and `(max)` otherwise; `decimal`/`numeric` get
`(precision,scale)`; every other type is rendered bare. -/
def formatColumnType (cd : columnDef) : String :=
  let dt := toLowerStr cd.dataType
  if dt = "char" ∨ dt = "varchar" ∨ dt = "nchar" ∨ dt = "nvarchar" then
    if cd.maxLength > 0 then
      cd.dataType ++ "(" ++ toString cd.maxLength ++ ")"
    else
      cd.dataType ++ "(max)"
  else
    if dt = "decimal" ∨ dt = "numeric" then
      cd.dataType ++ "(" ++ toString cd.precision ++ "," ++ toString cd.scale ++ ")"
    else
      cd.dataType

/-! ### Data dump engine -/

/-- A runtime value scanned from a row, following the cases of the type
switch in `dumpTableData`.  `bytes` carries the `[]byte` payload decoded as
text (the Go code converts it with `string(v)` before escaping); `time`
carries the already-formatted `YYYY-MM-DD HH:MM:SS` text that
`v.Format` produces; `other` carries the `fmt.Sprint(v)` rendering of any
remaining type. -/
inductive Value where
  | null
  | bytes (s : String)
  | str (s : String)
  | time (formatted : String)
  | boolean (b : Bool)
  | other (rendered : String)
  deriving DecidableEq, Repr

/-- One scanned row. -/
abbrev Row := List Value

/-- `strings.ReplaceAll(s, singleQuote, twoSingleQuotes)`: with a
one-character pattern this is exactly per-character doubling. -/
def escapeSingleQuotes (s : String) : String :=
  ⟨s.data.foldr (fun c acc => if c = quoteChar then quoteChar :: quoteChar :: acc else c :: acc) []⟩

/-- The guard `len(colInfo) > i && strings.EqualFold(colInfo[i].dataType,
"geography")` (case folding embedded as ASCII lower-casing against the
lower-case literal). -/
def isGeographyCol (colInfo : List columnDef) (i : Nat) : Bool :=
  match colInfo[i]? with
  | some cd => decide (toLowerStr cd.dataType = "geography")
  | none => false

/-- Formatting of a single value (the body of the `for i, val` loop in
`dumpTableData`): a declared `geography` column renders `NULL` regardless
of the value; otherwise the value is rendered by its runtime type. -/
def formatValue (colInfo : List columnDef) (i : Nat) (v : Value) : String :=
  if isGeographyCol colInfo i then "NULL"
  else
    match v with
    | Value.null => "NULL"
    | Value.bytes s => quoteStr ++ escapeSingleQuotes s ++ quoteStr
    | Value.str s => quoteStr ++ escapeSingleQuotes s ++ quoteStr
    | Value.time formatted => quoteStr ++ formatted ++ quoteStr
    | Value.boolean b => if b then "1" else "0"
    | Value.other rendered => rendered

/-- The formatted values of one row, in column order. -/
def formatValues (colInfo : List columnDef) (row : Row) : List String :=
  row.enum.map (fun p => formatValue colInfo p.1 p.2)

/-- One `(v1, v2, ...)` tuple of an `INSERT` statement. -/
def formatRow (colInfo : List columnDef) (row : Row) : String :=
  "(" ++ joinSep (", ") (formatValues colInfo row) ++ ")"

/-- `insertBuffer.flush()`: empty buffer flushes to nothing, otherwise the
buffered tuples are joined and the statement is terminated. -/
def flushBuffer (b : List String) : String :=
  if b = [] then "" else joinSep (",\n") b ++ ";\n"

/-- The row loop of `dumpTableData`: `builder` is the accumulated
statement text, `buf` the open `insertBuffer`, `batchCount` the countdown
to the next flush.  A new statement head is written when the countdown is
full; the buffer is flushed and the countdown reset every `batch` rows and
once more at the end if rows remain buffered. -/
def dumpRowsGo (insertHead : String) (colInfo : List columnDef) (batch : Int) :
    List Row → String → List String → Int → String
  | [], builder, buf, _ => builder ++ flushBuffer buf
  | row :: rest, builder, buf, batchCount =>
    let builder := if batchCount = batch then builder ++ insertHead else builder
    let buf := buf ++ [formatRow colInfo row]
    let batchCount := batchCount - 1
    if batchCount ≤ 0 then
      dumpRowsGo insertHead colInfo batch rest (builder ++ flushBuffer buf) [] batch
    else
      dumpRowsGo insertHead colInfo batch rest builder buf batchCount

/-- The `INSERT` section of one table's dump (`batch := 50` as in the
source; the loop starts with an empty builder, an empty buffer and a full
countdown). -/
def dumpRows (insertHead : String) (colInfo : List columnDef) (rows : List Row) : String :=
  dumpRowsGo insertHead colInfo 50 rows ("") [] 50

/-- `dumpTableData` for one table, on the rows its query returned: comment
header, the batched `INSERT` statements (wrapped in identity-insert
toggles when some column is an identity column), and the `GO;` batch
separator. -/
def dumpTableData (table : String) (columns : List String) (colInfo : List columnDef)
    (rows : List Row) : String :=
  let colNames := columns.map (fun col => FormatObjectName [col])
  let colList := joinSep (", ") colNames
  let insertHead := "INSERT INTO " ++ table ++ " (" ++ colList ++ ") VALUES \n"
  let body := dumpRows insertHead colInfo rows
  let isIdentity := colInfo.any (fun col => col.isIdentity)
  let header := "-- Data dump for table: " ++ table ++ "\n"
  let block :=
    if isIdentity then
      "SET IDENTITY_INSERT " ++ table ++ " ON;\n" ++ body ++
        "SET IDENTITY_INSERT " ++ table ++ " OFF;\n"
    else body
  header ++ block ++ "\nGO;\n\n"

/-- Consecutive batches of `n` elements, the last holding the remainder;
used to state what the batching loop produces. -/
def chunksOf {α : Type} (n : Nat) : List α → List (List α)
  | [] => []
  | x :: xs =>
    if _h : n = 0 then []
    else (x :: xs).take n :: chunksOf n ((x :: xs).drop n)
  termination_by l => l.length
  decreasing_by
    simp only [List.length_drop, List.length_cons]
    omega

/-- One batch rendered as one multi-row `INSERT` statement. -/
def renderChunk (insertHead : String) (chunk : List String) : String :=
  insertHead ++ joinSep (",\n") chunk ++ ";\n"

/-- Concatenation of a list of strings (used to state what the batching
loop emits). -/
def concatAll : List String → String
  | [] => ""
  | x :: l => x ++ concatAll l

/-! ### `DumpData`: per-table task aggregation

The Go `DumpData` spawns one goroutine per table; each task either skips
the table (progress signal, no output), appends its rendered block to the
shared builder under the mutex (progress signal), or records its error on
the error channel (no progress signal, no output).  After all tasks
finish, the first recorded error — if any — is returned together with an
empty string, discarding the accumulated output.  The embedding runs the
tasks in one sequential schedule; every property proved about it is
independent of the interleaving. -/

/-- Shared state of a `DumpData` run: the output builder, the number of
progress signals received, and the first error recorded on the channel. -/
structure DumpAcc where
  output : String
  progress : Nat
  firstErr : Option AppError
  deriving Repr

/-- One table's task, as a transition on the shared state.  `tableDump`
abstracts `dumpTableData` applied to whatever the table's query returns. -/
def dumpStep (skip : List String) (tableDump : TableName → Except AppError String)
    (acc : DumpAcc) (tbl : TableName) : DumpAcc :=
  let tableName := (GetParts tbl).2
  if tableName ∈ skip then
    { acc with progress := acc.progress + 1 }
  else
    match tableDump tbl with
    | Except.error e =>
      { acc with firstErr := match acc.firstErr with
          | some e0 => some e0
          | none => some e }
    | Except.ok dump =>
      { acc with output := acc.output ++ dump, progress := acc.progress + 1 }

/-- All per-table tasks, run to completion. -/
def dumpDataRun (skip : List String) (tableDump : TableName → Except AppError String)
    (tables : List TableName) : DumpAcc :=
  tables.foldl (dumpStep skip tableDump) ⟨"", 0, none⟩

/-- `DumpData`'s return value: `("", err)` when some task failed, the
accumulated dump otherwise. -/
def DumpData (skip : List String) (tableDump : TableName → Except AppError String)
    (tables : List TableName) : String × Option AppError :=
  let acc := dumpDataRun skip tableDump tables
  match acc.firstErr with
  | some e => ("", some e)
  | none => (acc.output, none)

/-! ### Dependency analysis and topological sort -/

/-- `analyzeDependencies`, applied to the scanned
`(childSchema, childTable, parentSchema, parentTable)` tuples (a `NULL`
child side scans to the empty string).  For a tuple with a non-empty child
the parent is appended to the child's list; then — unconditionally — the
parent's binding is assigned the empty list (`make([]TableName, 0)`). -/
def analyzeDependencies (rows : List (String × String × String × String)) : DependencyTree :=
  rows.foldl
    (fun dependencies r =>
      let childName := NewTableName r.1 r.2.1
      let parentName := NewTableName r.2.2.1 r.2.2.2
      let dependencies :=
        if IsEmpty childName then dependencies
        else setVal dependencies childName (depsGet dependencies childName ++ [parentName])
      setVal dependencies parentName [])
    []

/-- `tableDegree[k]` (zero value `0` when absent). -/
def getDeg (m : List (TableName × Int)) (k : TableName) : Int :=
  (lookupKey m k).getD 0

/-- The first loop of `sortTablesByDependencies`: degree := number of
parents. -/
def buildDegrees (deps : DependencyTree) : List (TableName × Int) :=
  deps.foldl (fun tableDegree p => setVal tableDegree p.1 (p.2.length : Int)) []

/-- The queue seeding loop: all tables of degree zero. -/
def initQueue (tableDegree : List (TableName × Int)) : List TableName :=
  (tableDegree.filter (fun p => decide (p.2 = 0))).map Prod.fst

/-- The inner `for child, parents := range deps` pass of the sort loop:
for every remaining table whose parents contain the emitted table,
decrement its degree and enqueue it when the degree reaches zero.  (The
`ExceptionLogs` comparison in the source guards an empty debug block and
has no effect.) -/
def decPass (table : TableName) :
    DependencyTree → List (TableName × Int) → List TableName →
      (List (TableName × Int)) × List TableName
  | [], tableDegree, queue => (tableDegree, queue)
  | (child, parents) :: rest, tableDegree, queue =>
    if table ∈ parents then
      let d := getDeg tableDegree child - 1
      let tableDegree := setVal tableDegree child d
      let queue := if d = 0 then queue ++ [child] else queue
      decPass table rest tableDegree queue
    else
      decPass table rest tableDegree queue

/-- Number of strictly positive degree entries; `queue length + countPos`
strictly decreases at every iteration of the sort loop, which bounds the
number of iterations. -/
def countPos (m : List (TableName × Int)) : Nat :=
  (m.filter (fun p => decide (0 < p.2))).length

/-- The `for len(queue) > 0` loop of `sortTablesByDependencies`.  The
loop of the source terminates because each iteration pops the queue and
pushes only tables whose degree just reached zero; the `fuel` argument
makes that measure explicit: called with
`fuel = queue.length + countPos tableDegree` the zero-fuel case is
unreachable (proved in `kahnLoopF_spec`).  Returns the sorted list
together with the final state of the (mutated) `deps` map. -/
def kahnLoopF : Nat → DependencyTree → List (TableName × Int) → List TableName →
    List TableName → List TableName × DependencyTree
  | 0, deps, _, _, sorted => (sorted, deps)
  | fuel + 1, deps, tableDegree, queue, sorted =>
    match queue with
    | [] => (sorted, deps)
    | table :: queue' =>
      let deps' := eraseKey deps table
      let p := decPass table deps' tableDegree queue'
      kahnLoopF fuel deps' p.1 p.2 (sorted ++ [table])

/-- `sortTablesByDependencies`: Kahn's algorithm over the dependency
tree.  The Go function mutates its argument map and returns
`(sorted, nil)` on success or `(nil, error)` when tables remain
unprocessed; the embedding returns the `Except` result together with the
final state of the argument map. -/
def sortTablesByDependencies (deps : DependencyTree) :
    Except AppError (List TableName) × DependencyTree :=
  let tableDegree := buildDegrees deps
  let queue := initQueue tableDegree
  let totalLenght := deps.length
  let r := kahnLoopF (queue.length + countPos tableDegree) deps tableDegree queue []
  if r.1.length = totalLenght then (Except.ok r.1, r.2)
  else
    (Except.error (apperrorsNew ErrCode.ErrMigrateProcess
      ("cyclic dependency or incomplete dependency graph detected")), r.2)

/-- The dependency edges of a tree: `child` depends on `parent`. -/
def edgeOf (deps : DependencyTree) (child parent : TableName) : Prop :=
  ∃ parents, (child, parents) ∈ deps ∧ parent ∈ parents

/-- A list is topologically ordered for `deps`: whenever `c` occurs, every
table `c` depends on occurs strictly earlier. -/
def OrderOK (deps : DependencyTree) (sorted : List TableName) : Prop :=
  ∀ l₁ c l₂, sorted = l₁ ++ c :: l₂ → ∀ x, edgeOf deps c x → x ∈ l₁

/-- Loop invariant of `kahnLoopF` relative to the initial tree `deps0`:
the remaining map holds exactly the unemitted bindings; emitted and queued
tables are distinct; the degree of every remaining table counts its
not-yet-emitted parents; every degree-zero remaining table is queued, and
queued tables have degree zero with all parents already emitted; the
emitted prefix is topologically ordered. -/
structure KahnInv (deps0 deps : DependencyTree) (tableDegree : List (TableName × Int))
    (queue sorted : List TableName) : Prop where
  deps_eq : deps = deps0.filter (fun p => decide (p.1 ∉ sorted))
  nodup : (sorted ++ queue).Nodup
  sorted_keys : ∀ t ∈ sorted, t ∈ keysOf deps0
  queue_keys : ∀ q ∈ queue, q ∈ keysOf deps
  deg_eq : ∀ p ∈ deps,
    getDeg tableDegree p.1 =
      (p.2.length : Int) - ((sorted.filter (fun x => decide (x ∈ p.2))).length : Int)
  deg_zero_queued : ∀ p ∈ deps, getDeg tableDegree p.1 = 0 → p.1 ∈ queue
  queue_ready : ∀ q ∈ queue, ∀ x, edgeOf deps0 q x → x ∈ sorted
  queue_deg : ∀ q ∈ queue, getDeg tableDegree q = 0
  order : OrderOK deps0 sorted

/-! ## Theorems -/

/-- Character-level description of the quote escaping performed by
`strings.ReplaceAll(s, singleQuote, twoSingleQuotes)`. -/
theorem escapeSingleQuotes_data (s : String) :
    (escapeSingleQuotes s).data =
      s.data.flatMap (fun c => if c = quoteChar then [quoteChar, quoteChar] else [c]) := by
  show s.data.foldr _ [] = _
  induction s.data with
  | nil => rfl
  | cons c l ih =>
    by_cases hc : c = quoteChar <;>
      simp [List.flatMap_cons, hc, ← ih]

/-- C6: value rendering in the data dump.  On a non-`geography` column a
text value is rendered with every single quote doubled and wrapped in
single quotes, an absent value as the bare literal `NULL`, `true` as `1`
and `false` as `0`; on a declared `geography` column every value is
rendered as `NULL`. -/
theorem formatValue_cases (colInfo : List columnDef) (i : Nat) :
    (isGeographyCol colInfo i = false →
      (∀ s, (formatValue colInfo i (Value.str s)).data =
          quoteChar ::
            (s.data.flatMap fun c => if c = quoteChar then [quoteChar, quoteChar] else [c])
            ++ [quoteChar]) ∧
      formatValue colInfo i Value.null = "NULL" ∧
      formatValue colInfo i (Value.boolean true) = "1" ∧
      formatValue colInfo i (Value.boolean false) = "0") ∧
    (isGeographyCol colInfo i = true → ∀ v, formatValue colInfo i v = "NULL") := by
  constructor
  · intro hgeo
    refine ⟨fun s => ?_, ?_, ?_, ?_⟩ <;>
      simp [formatValue, hgeo, quoteStr, String.data_append, escapeSingleQuotes_data,
        String.singleton]
  · intro hgeo v
    simp [formatValue, hgeo]

/-- Witness for C6 at concrete inputs, including the `O'Brien` example
(the column list is empty, hence not a geography column, for the first
three; a one-column geography list for the last). -/
theorem formatValue_cases_witness :
    (formatValue [] 0 (Value.str (("O") ++ quoteStr ++ ("Brien")))).data =
        (quoteStr ++ ("O") ++ quoteStr ++ quoteStr ++ ("Brien") ++ quoteStr).data ∧
    formatValue [] 0 Value.null = "NULL" ∧
    formatValue [] 0 (Value.boolean true) = "1" ∧
    formatValue [⟨"dbo", "T", "g", 1, "geography", -1, 0, 0, true, false, false⟩] 0
        (Value.other ("42")) = "NULL" := by
  refine ⟨((formatValue_cases [] 0).1 (by decide)).1 _ |>.trans (by decide), ?_, ?_, ?_⟩
  · exact ((formatValue_cases [] 0).1 (by decide)).2.1
  · exact ((formatValue_cases [] 0).1 (by decide)).2.2.1
  · exact (formatValue_cases _ 0).2 (by decide) _

/-- C7: `formatColumnType` renders character types with `(length)` when
the stored length is positive and `(max)` otherwise, `decimal`/`numeric`
with `(precision,scale)`, and every other type bare. -/
theorem formatColumnType_rules (cd : columnDef) :
    (toLowerStr cd.dataType ∈ ["char", "varchar", "nchar", "nvarchar"] → 0 < cd.maxLength →
      formatColumnType cd = cd.dataType ++ "(" ++ toString cd.maxLength ++ ")") ∧
    (toLowerStr cd.dataType ∈ ["char", "varchar", "nchar", "nvarchar"] → cd.maxLength ≤ 0 →
      formatColumnType cd = cd.dataType ++ "(max)") ∧
    (toLowerStr cd.dataType = "decimal" ∨ toLowerStr cd.dataType = "numeric" →
      formatColumnType cd =
        cd.dataType ++ "(" ++ toString cd.precision ++ "," ++ toString cd.scale ++ ")") ∧
    ((toLowerStr cd.dataType ∈ ["char", "varchar", "nchar", "nvarchar"] → False) →
      (toLowerStr cd.dataType = "decimal" ∨ toLowerStr cd.dataType = "numeric" → False) →
      formatColumnType cd = cd.dataType) := by
  refine ⟨fun hchar hpos => ?_, fun hchar hnonpos => ?_, fun hdec => ?_, fun hnc hnd => ?_⟩
  · have : cd.maxLength > 0 := hpos
    simp only [List.mem_cons, List.mem_singleton, List.not_mem_nil, or_false] at hchar
    simp [formatColumnType, hchar, this]
  · have : ¬ (cd.maxLength > 0) := by omega
    simp only [List.mem_cons, List.mem_singleton, List.not_mem_nil, or_false] at hchar
    simp [formatColumnType, hchar, this]
  · have hnotchar : ¬ (toLowerStr cd.dataType = "char" ∨ toLowerStr cd.dataType = "varchar" ∨
        toLowerStr cd.dataType = "nchar" ∨ toLowerStr cd.dataType = "nvarchar") := by
      rcases hdec with h | h <;> simp [h]
    simp [formatColumnType, hnotchar, hdec]
  · have hnotchar : ¬ (toLowerStr cd.dataType = "char" ∨ toLowerStr cd.dataType = "varchar" ∨
        toLowerStr cd.dataType = "nchar" ∨ toLowerStr cd.dataType = "nvarchar") := by
      intro h
      exact hnc (by simpa using h)
    have hnotdec : ¬ (toLowerStr cd.dataType = "decimal" ∨
        toLowerStr cd.dataType = "numeric") := hnd
    simp [formatColumnType, hnotchar, hnotdec]

/-- Witness for C7: `varchar(50)`, `varchar` with length `-1`,
`decimal(10,2)` and bare `int`. -/
theorem formatColumnType_rules_witness :
    formatColumnType ⟨"dbo", "T", "c", 1, "varchar", 50, 0, 0, true, false, false⟩
        = "varchar(50)" ∧
    formatColumnType ⟨"dbo", "T", "c", 1, "varchar", -1, 0, 0, true, false, false⟩
        = "varchar(max)" ∧
    formatColumnType ⟨"dbo", "T", "c", 1, "decimal", 9, 10, 2, true, false, false⟩
        = "decimal(10,2)" ∧
    formatColumnType ⟨"dbo", "T", "c", 1, "int", 4, 10, 0, true, false, false⟩ = "int" := by
  refine ⟨?_, ?_, ?_, ?_⟩
  · exact ((formatColumnType_rules _).1 (by decide) (by decide)).trans (by decide)
  · exact (formatColumnType_rules _).2.1 (by decide) (by decide)
  · exact ((formatColumnType_rules _).2.2.1 (by decide)).trans (by decide)
  · exact (formatColumnType_rules _).2.2.2 (by decide) (by decide)

/-- C2 (failing input): after processing `(A driven by B)` and then
`(C driven by A)`, the unconditional `dependencies[parentName] =
make([]TableName, 0)` assignment for parent `A` has erased `A`'s
previously recorded dependency on `B`: `A` is still a key, but its
dependency list is empty. -/
theorem analyzeDependencies_overwrite_bug :
    depsGet (analyzeDependencies [("", "A", "", "B"), ("", "C", "", "A")])
        (NewTableName ("") ("A")) = [] ∧
    NewTableName ("") ("A") ∈
      keysOf (analyzeDependencies [("", "A", "", "B"), ("", "C", "", "A")]) ∧
    NewTableName ("") ("B") ∉
      depsGet (analyzeDependencies [("", "A", "", "B"), ("", "C", "", "A")])
        (NewTableName ("") ("A")) := by
  decide

/-! ### C8: object naming -/

theorem takeUntilRB_append (a r : List Char) (ha : ']' ∉ a) :
    takeUntilRB (a ++ ']' :: r) = (a, ']' :: r) := by
  induction a with
  | nil => simp [takeUntilRB]
  | cons c cs ih =>
    have hc : ¬ (c = ']') := by
      rintro rfl
      exact ha (List.mem_cons_self _ _)
    have hcs : ']' ∉ cs := fun h => ha (List.mem_cons_of_mem _ h)
    simp [takeUntilRB, hc, ih hcs]

theorem takeUntilRB_inv : ∀ (cs : List Char) {a r : List Char}, takeUntilRB cs = (a, r) →
    cs = a ++ r ∧ ']' ∉ a ∧ (r = [] ∨ ∃ r2, r = ']' :: r2) := by
  intro cs
  induction cs with
  | nil =>
    intro a r h
    simp only [takeUntilRB, Prod.mk.injEq] at h
    obtain ⟨h1, h2⟩ := h
    subst h1
    subst h2
    simp
  | cons c cs ih =>
    intro a r h
    by_cases hc : c = ']'
    · subst hc
      simp only [takeUntilRB, if_true, eq_self_iff_true, ite_true, Prod.mk.injEq] at h
      obtain ⟨h1, h2⟩ := h
      subst h1
      subst h2
      exact ⟨rfl, by simp, Or.inr ⟨cs, rfl⟩⟩
    · rcases hp : takeUntilRB cs with ⟨a1, r1⟩
      simp only [takeUntilRB, if_neg hc, hp, Prod.mk.injEq] at h
      obtain ⟨h1, h2⟩ := h
      subst h1
      subst h2
      obtain ⟨heq, hna, hr⟩ := ih hp
      refine ⟨by simp [heq], ?_, hr⟩
      intro hmem
      rcases List.mem_cons.mp hmem with h1 | h1
      · exact hc h1.symm
      · exact hna h1

theorem getPartsAux_canonical (a b : List Char) (ha : a ≠ []) (hb : b ≠ [])
    (ha2 : ']' ∉ a) (hb2 : ']' ∉ b) :
    getPartsAux ('[' :: (a ++ ']' :: '.' :: '[' :: (b ++ [']']))) = some (a, b) := by
  have h1 := takeUntilRB_append a ('.' :: '[' :: (b ++ [']'])) ha2
  have h2 : takeUntilRB (b ++ [']']) = (b, [']']) := takeUntilRB_append b [] hb2
  simp [getPartsAux, h1, h2, ha, hb]

theorem getPartsAux_some : ∀ (cs : List Char) {a b : List Char}, getPartsAux cs = some (a, b) →
    a ≠ [] ∧ b ≠ [] ∧ ']' ∉ a ∧ ']' ∉ b ∧
      cs = '[' :: (a ++ ']' :: '.' :: '[' :: (b ++ [']'])) := by
  intro cs a b h
  cases cs with
  | nil => simp [getPartsAux] at h
  | cons c rest =>
    by_cases hc : c = '['
    · subst hc
      rcases hp : takeUntilRB rest with ⟨a1, r1⟩
      rw [getPartsAux] at h
      simp only [hp] at h
      by_cases ha1 : a1 = []
      · simp [ha1] at h
      · rw [if_neg ha1] at h
        obtain ⟨hrest, hna1, hr1⟩ := takeUntilRB_inv rest hp
        rcases hr1 with rfl | ⟨r2, rfl⟩
        · simp at h
        · cases r2 with
          | nil => simp at h
          | cons c2 r3 =>
            by_cases hc2 : c2 = '.'
            · subst hc2
              cases r3 with
              | nil => simp at h
              | cons c3 r4 =>
                by_cases hc3 : c3 = '['
                · subst hc3
                  rcases hq : takeUntilRB r4 with ⟨b1, r5⟩
                  simp only [hq] at h
                  by_cases hb1 : b1 = []
                  · simp [hb1] at h
                  · rw [if_neg hb1] at h
                    obtain ⟨hr4, hnb1, hr5⟩ := takeUntilRB_inv r4 hq
                    rcases hr5 with rfl | ⟨r6, rfl⟩
                    · simp at h
                    · cases r6 with
                      | nil =>
                        simp only [Option.some.injEq, Prod.mk.injEq] at h
                        obtain ⟨h1, h2⟩ := h
                        subst h1
                        subst h2
                        exact ⟨ha1, hb1, hna1, hnb1, by simp [hrest, hr4]⟩
                      | cons c7 r7 => simp at h
                · simp [hc3] at h
            · simp [hc2] at h
    · rw [getPartsAux.eq_def] at h
      split at h
      · next heq =>
        injection heq with h1 h2
        exact absurd h1 hc
      · simp at h

theorem data_lbracket : ("[" : String).data = ['['] := rfl

theorem data_rbracket : ("]" : String).data = [']'] := rfl

theorem data_dot : ("." : String).data = ['.'] := rfl

theorem data_rbldotlb : ("].[" : String).data = [']', '.', '['] := rfl

/-- The character content of a canonical `[a].[b]` identifier. -/
theorem canonical_data (a b : String) :
    ("[" ++ a ++ "].[" ++ b ++ "]").data =
      '[' :: (a.data ++ ']' :: '.' :: '[' :: (b.data ++ [']'])) := by
  simp [String.data_append, data_lbracket, data_rbracket, data_rbldotlb]

/-- C8: round trip of the object-naming component.  For a schema and a
non-empty table containing no closing bracket, `GetParts` inverts
`NewTableName` (with the `dbo` default applied); and `GetParts` of any
string that is not of the canonical `[x].[y]` shape is a pair of empty
strings. -/
theorem GetParts_NewTableName (s t : String) (hs : ']' ∉ s.data) (ht : ']' ∉ t.data)
    (htne : t ≠ "") :
    GetParts (NewTableName s t) = ((if s = "" then "dbo" else s), t) ∧
    ∀ u : TableName,
      (¬ ∃ a b : String, a ≠ "" ∧ b ≠ "" ∧ ']' ∉ a.data ∧ ']' ∉ b.data ∧
          u = "[" ++ a ++ "].[" ++ b ++ "]") →
      GetParts u = ("", "") := by
  constructor
  · have hsplit : ∀ s1 : String, s1.data ≠ [] → ']' ∉ s1.data →
        GetParts (FormatObjectName [s1, t]) = (s1, t) := by
      intro s1 hne hnr
      have hdata : (FormatObjectName [s1, t]).data =
          '[' :: (s1.data ++ ']' :: '.' :: '[' :: (t.data ++ [']'])) := by
        have : FormatObjectName [s1, t] = "[" ++ s1 ++ "].[" ++ t ++ "]" := by
          simp only [FormatObjectName, List.map_cons, List.map_nil, joinSep]
          apply String.ext
          simp [String.data_append, data_lbracket, data_rbracket, data_dot, data_rbldotlb]
        rw [this, canonical_data]
      have htd : t.data ≠ [] := by
        intro hnil
        exact htne (String.ext (by simpa using hnil))
      rw [GetParts, hdata, getPartsAux_canonical _ _ hne htd hnr ht]
    rw [NewTableName]
    split
    · exact hsplit ("dbo") (by decide) (by decide)
    · next hse =>
      refine hsplit s ?_ hs
      intro hnil
      exact hse (String.ext (by simpa using hnil))
  · intro u hno
    rcases hgp : getPartsAux u.data with _ | ⟨a, b⟩
    · simp [GetParts, hgp]
    · exfalso
      obtain ⟨ha, hb, hna, hnb, heq⟩ := getPartsAux_some u.data hgp
      apply hno
      refine ⟨⟨a⟩, ⟨b⟩, ?_, ?_, hna, hnb, ?_⟩
      · intro h0
        exact ha (by simpa using congrArg String.data h0)
      · intro h0
        exact hb (by simpa using congrArg String.data h0)
      · apply String.ext
        rw [heq, canonical_data]

/-- Witness for C8: a concrete round trip, the `dbo` default, and a
non-canonical input. -/
theorem GetParts_NewTableName_witness :
    GetParts (NewTableName ("sch") ("tbl")) = ("sch", "tbl") ∧
    GetParts (NewTableName ("") ("tbl")) = ("dbo", "tbl") ∧
    GetParts ("") = ("", "") := by
  have h1 := GetParts_NewTableName ("sch") ("tbl") (by decide) (by decide) (by decide)
  have h2 := GetParts_NewTableName ("") ("tbl") (by decide) (by decide) (by decide)
  refine ⟨h1.1.trans (by decide), h2.1.trans (by decide), ?_⟩
  refine h1.2 ("") (fun hex => ?_)
  obtain ⟨a, b, _, _, _, _, hu⟩ := hex
  have hd := congrArg String.data hu
  rw [canonical_data] at hd
  simp at hd

/-! ### C4 and C9: `DumpData` aggregation -/

theorem dumpStep_firstErr_isSome (skip : List String)
    (f : TableName → Except AppError String) :
    ∀ (l : List TableName) (acc : DumpAcc), acc.firstErr.isSome = true →
      ((l.foldl (dumpStep skip f) acc).firstErr).isSome = true := by
  intro l
  induction l with
  | nil =>
    intro acc h
    simpa using h
  | cons t rest ih =>
    intro acc h
    rw [List.foldl_cons]
    apply ih
    by_cases hsk : (GetParts t).2 ∈ skip
    · simpa [dumpStep, hsk] using h
    · rcases hft : f t with e | d
      · rcases hfe : acc.firstErr with _ | e0
        · rw [hfe] at h
          simp at h
        · simp [dumpStep, hsk, hft, hfe]
      · simpa [dumpStep, hsk, hft] using h

theorem foldl_firstErr_of_fail (skip : List String)
    (f : TableName → Except AppError String) :
    ∀ (l : List TableName) (acc : DumpAcc) (t : TableName), t ∈ l →
      (GetParts t).2 ∉ skip → (∃ e, f t = Except.error e) →
      ((l.foldl (dumpStep skip f) acc).firstErr).isSome = true := by
  intro l
  induction l with
  | nil =>
    intro acc t ht
    simp at ht
  | cons t0 rest ih =>
    intro acc t ht hskip he
    obtain ⟨e, he⟩ := he
    rw [List.foldl_cons]
    rcases List.mem_cons.mp ht with rfl | hmem
    · apply dumpStep_firstErr_isSome
      rcases hfe : acc.firstErr with _ | e0 <;> simp [dumpStep, hskip, he, hfe]
    · exact ih _ t hmem hskip ⟨e, he⟩

/-- C4: if any table's dump task fails (and the table is not skipped),
`DumpData` returns the empty string together with an error — the output
accumulated from the other tables is discarded, never returned as a
successful partial dump. -/
theorem DumpData_error_discards_output (skip : List String)
    (f : TableName → Except AppError String) (tables : List TableName)
    (h : ∃ t ∈ tables, (GetParts t).2 ∉ skip ∧ ∃ e, f t = Except.error e) :
    (DumpData skip f tables).1 = "" ∧ ((DumpData skip f tables).2).isSome = true := by
  obtain ⟨t, ht, hskip, he⟩ := h
  have hsome := foldl_firstErr_of_fail skip f tables ⟨"", 0, none⟩ t ht hskip he
  rcases hfe : (tables.foldl (dumpStep skip f) ⟨"", 0, none⟩).firstErr with _ | e
  · rw [hfe] at hsome
    simp at hsome
  · constructor <;> simp [DumpData, dumpDataRun, hfe]

/-- Witness for C4: one failing table, empty skip list. -/
theorem DumpData_error_discards_output_witness :
    (DumpData [] (fun _ => Except.error (apperrorsNew ErrCode.ErrDataDump ("boom")))
        ["[dbo].[T]"]).1 = "" ∧
    ((DumpData [] (fun _ => Except.error (apperrorsNew ErrCode.ErrDataDump ("boom")))
        ["[dbo].[T]"]).2).isSome = true :=
  DumpData_error_discards_output _ _ _
    ⟨"[dbo].[T]", by simp, by simp, apperrorsNew ErrCode.ErrDataDump ("boom"), rfl⟩

theorem dumpStep_progress_shift (skip : List String)
    (f : TableName → Except AppError String) (acc : DumpAcc) (t : TableName) :
    dumpStep skip f { acc with progress := acc.progress + 1 } t =
      { dumpStep skip f acc t with progress := (dumpStep skip f acc t).progress + 1 } := by
  by_cases hsk : (GetParts t).2 ∈ skip
  · simp [dumpStep, hsk]
  · rcases hft : f t with e | d <;> simp [dumpStep, hsk, hft]

theorem foldl_progress_shift (skip : List String)
    (f : TableName → Except AppError String) :
    ∀ (l : List TableName) (acc : DumpAcc),
      l.foldl (dumpStep skip f) { acc with progress := acc.progress + 1 } =
        { l.foldl (dumpStep skip f) acc with
            progress := (l.foldl (dumpStep skip f) acc).progress + 1 } := by
  intro l
  induction l with
  | nil => intro acc; rfl
  | cons t rest ih =>
    intro acc
    rw [List.foldl_cons, dumpStep_progress_shift, ih, List.foldl_cons]

/-- C9: a table whose bare name is in the skip-data list contributes
nothing to the output of a `DumpData` run — the final state is exactly the
state of the run without that table, except that one more progress
completion signal is reported. -/
theorem dumpDataRun_skip_table (skip : List String)
    (f : TableName → Except AppError String) (l₁ l₂ : List TableName) (t : TableName)
    (h : (GetParts t).2 ∈ skip) :
    dumpDataRun skip f (l₁ ++ t :: l₂) =
      { dumpDataRun skip f (l₁ ++ l₂) with
          progress := (dumpDataRun skip f (l₁ ++ l₂)).progress + 1 } := by
  unfold dumpDataRun
  rw [List.foldl_append, List.foldl_cons, List.foldl_append]
  have hstep : dumpStep skip f (List.foldl (dumpStep skip f) ⟨"", 0, none⟩ l₁) t =
      { List.foldl (dumpStep skip f) ⟨"", 0, none⟩ l₁ with
          progress := (List.foldl (dumpStep skip f) ⟨"", 0, none⟩ l₁).progress + 1 } := by
    unfold dumpStep
    rw [if_pos h]
  rw [hstep, foldl_progress_shift]

/-- Witness for C9: skipping `[dbo].[T]` (bare name `T`) in a two-table
run. -/
theorem dumpDataRun_skip_table_witness :
    dumpDataRun ["T"] (fun _ => Except.ok ("X")) ([] ++ "[dbo].[T]" :: ["[dbo].[U]"]) =
      { dumpDataRun ["T"] (fun _ => Except.ok ("X")) ([] ++ ["[dbo].[U]"]) with
          progress :=
            (dumpDataRun ["T"] (fun _ => Except.ok ("X")) ([] ++ ["[dbo].[U]"])).progress + 1 } :=
  dumpDataRun_skip_table _ _ [] ["[dbo].[U]"] ("[dbo].[T]") (by decide)

/-! ### C5: batch boundaries of the data dump -/

theorem chunksOf_cons_eq {α : Type} (n : Nat) (hn : n ≠ 0) (x : α) (xs : List α) :
    chunksOf n (x :: xs) = (x :: xs).take n :: chunksOf n ((x :: xs).drop n) := by
  rw [chunksOf]
  simp [hn]

theorem chunksOf_ne_nil_eq {α : Type} (n : Nat) (hn : n ≠ 0) (l : List α) (hl : l ≠ []) :
    chunksOf n l = l.take n :: chunksOf n (l.drop n) := by
  cases l with
  | nil => exact absurd rfl hl
  | cons x xs => exact chunksOf_cons_eq n hn x xs

theorem dumpRowsGo_spec (insertHead : String) (colInfo : List columnDef) (b : Nat)
    (hb : 0 < b) :
    ∀ (n : Nat) (rows : List Row), rows.length ≤ n →
      (∀ builder : String,
        dumpRowsGo insertHead colInfo (b : Int) rows builder [] (b : Int) =
          builder ++ concatAll ((chunksOf b (rows.map (formatRow colInfo))).map
            (renderChunk insertHead))) ∧
      (∀ (buf : List String) (builder : String), buf ≠ [] → buf.length < b →
        dumpRowsGo insertHead colInfo (b : Int) rows builder buf ((b : Int) - buf.length) =
          builder ++ joinSep (",\n") (buf ++ (rows.take (b - buf.length)).map (formatRow colInfo))
            ++ ";\n" ++ concatAll ((chunksOf b ((rows.drop (b - buf.length)).map
              (formatRow colInfo))).map (renderChunk insertHead))) := by
  intro n
  induction n with
  | zero =>
    intro rows hlen
    have hrows : rows = [] := List.length_eq_zero.mp (Nat.le_zero.mp hlen)
    subst hrows
    constructor
    · intro builder
      simp [dumpRowsGo, flushBuffer, chunksOf, concatAll]
    · intro buf builder hbne hblt
      simp [dumpRowsGo, flushBuffer, hbne, chunksOf, concatAll, String.append_assoc]
  | succ n ih =>
    intro rows hlen
    cases rows with
    | nil =>
      constructor
      · intro builder
        simp [dumpRowsGo, flushBuffer, chunksOf, concatAll]
      · intro buf builder hbne hblt
        simp [dumpRowsGo, flushBuffer, hbne, chunksOf, concatAll, String.append_assoc]
    | cons row rest =>
      have hrest : rest.length ≤ n := by
        simpa using hlen
      constructor
      · intro builder
        simp only [dumpRowsGo, eq_self_iff_true, if_true, ite_true, List.nil_append]
        by_cases hb1 : b = 1
        · subst hb1
          rw [if_pos (by omega)]
          rw [(ih rest hrest).1]
          simp only [List.map_cons]
          rw [chunksOf_cons_eq 1 (by omega)]
          simp [flushBuffer, joinSep, renderChunk, concatAll, String.append_assoc]
        · rw [if_neg (by omega)]
          have h2 := (ih rest hrest).2 [formatRow colInfo row] (builder ++ insertHead)
            (by simp) (by simp only [List.length_singleton]; omega)
          simp only [List.length_singleton, Nat.cast_one] at h2
          rw [h2]
          obtain ⟨k, hk⟩ : ∃ k, b = k + 1 := ⟨b - 1, by omega⟩
          subst hk
          simp only [List.map_cons]
          rw [chunksOf_cons_eq (k + 1) (by omega)]
          simp only [List.take_succ_cons, List.drop_succ_cons, Nat.add_sub_cancel,
            ← List.map_take, ← List.map_drop]
          simp [renderChunk, concatAll, String.append_assoc]
      · intro buf builder hbne hblt
        have hbl : 0 < buf.length := List.length_pos.mpr hbne
        simp only [dumpRowsGo, if_neg (show ¬ ((b : Int) - buf.length = (b : Int)) by omega)]
        have harith : (b : Int) - buf.length - 1 = (b : Int) - (buf ++ [formatRow colInfo row]).length := by
          simp
          omega
        by_cases hfull : buf.length + 1 = b
        · rw [if_pos (by omega)]
          rw [(ih rest hrest).1]
          have htake : b - buf.length = 1 := by omega
          rw [htake]
          have hdrop : (row :: rest).drop 1 = rest := by simp
          have htake2 : (row :: rest).take 1 = [row] := by simp
          rw [hdrop, htake2]
          simp [flushBuffer, String.append_assoc]
        · rw [if_neg (by omega)]
          rw [harith]
          have h2 := (ih rest hrest).2 (buf ++ [formatRow colInfo row]) builder
            (by simp) (by simp only [List.length_append, List.length_singleton]; omega)
          rw [h2]
          have hk : b - buf.length = (b - (buf ++ [formatRow colInfo row]).length) + 1 := by
            simp only [List.length_append, List.length_singleton]
            omega
          rw [hk, List.take_succ_cons, List.drop_succ_cons]
          simp [String.append_assoc, List.append_assoc, List.map_cons]

/-- C5: the data dump engine groups a table's rows into consecutive
batches of 50 (the last batch holding the remainder), each batch emitted
as one multi-row `INSERT` statement; 120 rows yield exactly three
statements of 50, 50 and 20 rows. -/
theorem dumpRows_batches (insertHead : String) (colInfo : List columnDef) (rows : List Row) :
    dumpRows insertHead colInfo rows =
      concatAll ((chunksOf 50 (rows.map (formatRow colInfo))).map (renderChunk insertHead)) ∧
    (rows.length = 120 →
      (chunksOf 50 (rows.map (formatRow colInfo))).map List.length = [50, 50, 20]) := by
  constructor
  · have h := (dumpRowsGo_spec insertHead colInfo 50 (by omega) rows.length rows le_rfl).1 ("")
    simpa [dumpRows, Nat.cast_ofNat, String.empty_append] using h
  · intro h120
    set l := rows.map (formatRow colInfo) with hl
    have hlen : l.length = 120 := by simp [hl, h120]
    have hlne : l ≠ [] := by
      intro h0
      rw [h0] at hlen
      simp at hlen
    rw [chunksOf_ne_nil_eq 50 (by omega) l hlne]
    have hl1 : (l.drop 50).length = 70 := by simp [hlen]
    have hl1ne : l.drop 50 ≠ [] := by
      intro h0
      rw [h0] at hl1
      simp at hl1
    rw [chunksOf_ne_nil_eq 50 (by omega) _ hl1ne]
    have hl2 : ((l.drop 50).drop 50).length = 20 := by simp [hlen]
    have hl2ne : (l.drop 50).drop 50 ≠ [] := by
      intro h0
      rw [h0] at hl2
      simp at hl2
    rw [chunksOf_ne_nil_eq 50 (by omega) _ hl2ne]
    have hl3 : ((l.drop 50).drop 50).drop 50 = [] := by
      apply List.length_eq_zero.mp
      simp [hlen]
    rw [hl3]
    simp [chunksOf, List.length_take, hlen, hl1, hl2]

/-- Witness for C5: 120 one-column rows produce chunk sizes 50, 50, 20. -/
theorem dumpRows_batches_witness :
    ((chunksOf 50 ((List.replicate 120 ([Value.null] : Row)).map (formatRow []))).map
      List.length) = [50, 50, 20] :=
  (dumpRows_batches ("H") [] (List.replicate 120 [Value.null])).2 (by simp)

/-! ### Association-list lemmas -/

theorem lookupKey_eq_of_mem {α : Type} {m : List (TableName × α)} {k : TableName} {v : α}
    (hk : NodupKeys m) (hmem : (k, v) ∈ m) : lookupKey m k = some v := by
  induction m with
  | nil => simp at hmem
  | cons p rest ih =>
    obtain ⟨hp, hrest⟩ := List.nodup_cons.mp hk
    rcases List.mem_cons.mp hmem with heq | hmem2
    · rw [← heq]
      simp [lookupKey]
    · have hne : p.1 ≠ k := by
        intro h0
        exact hp (by
          rw [h0]
          exact List.mem_map_of_mem Prod.fst hmem2)
      rcases p with ⟨k', v'⟩
      simp only [lookupKey, if_neg hne]
      exact ih hrest hmem2

theorem mem_keysOf {α : Type} {m : List (TableName × α)} {k : TableName} :
    k ∈ keysOf m ↔ ∃ v, (k, v) ∈ m := by
  constructor
  · intro h
    obtain ⟨p, hp, hfst⟩ := List.mem_map.mp h
    exact ⟨p.2, by rwa [show (k, p.2) = p from by rw [← hfst]]⟩
  · rintro ⟨v, hv⟩
    exact List.mem_map_of_mem Prod.fst hv

theorem value_unique {α : Type} {m : List (TableName × α)} {k : TableName} {v w : α}
    (hk : NodupKeys m) (hv : (k, v) ∈ m) (hw : (k, w) ∈ m) : v = w := by
  have h1 := lookupKey_eq_of_mem hk hv
  have h2 := lookupKey_eq_of_mem hk hw
  rw [h1] at h2
  exact Option.some.injEq _ _ ▸ h2 ▸ rfl

theorem lookupKey_setVal_self {α : Type} (m : List (TableName × α)) (k : TableName) (v : α) :
    lookupKey (setVal m k v) k = some v := by
  induction m with
  | nil => simp [setVal, lookupKey]
  | cons p rest ih =>
    rcases p with ⟨k', v'⟩
    by_cases h : k' = k
    · simp [setVal, h, lookupKey]
    · simp [setVal, h, lookupKey, ih]

theorem lookupKey_setVal_ne {α : Type} (m : List (TableName × α)) (k x : TableName) (v : α)
    (hx : x ≠ k) : lookupKey (setVal m k v) x = lookupKey m x := by
  have hkx : ¬ (k = x) := fun h => hx h.symm
  induction m with
  | nil => simp [setVal, lookupKey, hkx]
  | cons p rest ih =>
    rcases p with ⟨k', v'⟩
    by_cases h : k' = k
    · subst h
      simp [setVal, lookupKey, hkx]
    · simp [setVal, h, lookupKey, ih]

theorem getDeg_setVal_self (m : List (TableName × Int)) (k : TableName) (v : Int) :
    getDeg (setVal m k v) k = v := by
  simp [getDeg, lookupKey_setVal_self]

theorem getDeg_setVal_ne (m : List (TableName × Int)) (k x : TableName) (v : Int)
    (hx : x ≠ k) : getDeg (setVal m k v) x = getDeg m x := by
  simp [getDeg, lookupKey_setVal_ne m k x v hx]

theorem eraseKey_sublist {α : Type} (m : List (TableName × α)) (k : TableName) :
    (eraseKey m k).Sublist m := by
  induction m with
  | nil => simp [eraseKey]
  | cons p rest ih =>
    rcases p with ⟨k', v'⟩
    by_cases h : k' = k
    · simp [eraseKey, h]
    · simpa [eraseKey, h] using ih.cons₂ (k', v')

theorem keysOf_sublist {α : Type} {m₁ m₂ : List (TableName × α)} (h : m₁.Sublist m₂) :
    (keysOf m₁).Sublist (keysOf m₂) :=
  h.map Prod.fst

theorem nodupKeys_of_sublist {α : Type} {m₁ m₂ : List (TableName × α)} (h : m₁.Sublist m₂)
    (hk : NodupKeys m₂) : NodupKeys m₁ :=
  (keysOf_sublist h).nodup hk

theorem setVal_not_mem_append {α : Type} (m : List (TableName × α)) (k : TableName) (v : α)
    (hk : k ∉ keysOf m) : setVal m k v = m ++ [(k, v)] := by
  induction m with
  | nil => simp [setVal]
  | cons p rest ih =>
    rcases p with ⟨k', v'⟩
    have h1 : ¬ (k' = k) := by
      intro h0
      exact hk (by simp [keysOf, h0])
    have h2 : k ∉ keysOf rest := fun h0 => hk (by simp [keysOf] at h0 ⊢; exact Or.inr h0)
    simp [setVal, h1, ih h2]

/-! ### Counting lemmas for degrees -/

theorem mem_of_filter_count (S ps : List TableName) (hS : S.Nodup)
    (hlen : (S.filter (fun x => decide (x ∈ ps))).length = ps.length) :
    ∀ x ∈ ps, x ∈ S := by
  intro x hx
  by_contra hxS
  have hFnd : (S.filter (fun x => decide (x ∈ ps))).Nodup :=
    (List.filter_sublist S).nodup hS
  have hsub : (S.filter (fun x => decide (x ∈ ps))).toFinset ⊆ ps.toFinset.erase x := by
    intro y hy
    rw [List.mem_toFinset, List.mem_filter] at hy
    obtain ⟨hyS, hyps⟩ := hy
    rw [decide_eq_true_eq] at hyps
    refine Finset.mem_erase.mpr ⟨?_, List.mem_toFinset.mpr hyps⟩
    intro h0
    rw [h0] at hyS
    exact hxS hyS
  have hle := Finset.card_le_card hsub
  rw [List.toFinset_card_of_nodup hFnd, hlen,
    Finset.card_erase_of_mem (List.mem_toFinset.mpr hx)] at hle
  have hlen2 := List.toFinset_card_le ps
  have hpos : 0 < ps.length := List.length_pos.mpr (by rintro rfl; simp at hx)
  have hcardpos : 0 < ps.toFinset.card := by
    rw [Finset.card_pos]
    exact ⟨x, List.mem_toFinset.mpr hx⟩
  omega

theorem filter_count_of_subset (S ps : List TableName) (hS : S.Nodup) (hps : ps.Nodup)
    (hsub : ∀ x ∈ ps, x ∈ S) :
    (S.filter (fun x => decide (x ∈ ps))).length = ps.length := by
  have hFnd : (S.filter (fun x => decide (x ∈ ps))).Nodup :=
    (List.filter_sublist S).nodup hS
  have hfs : (S.filter (fun x => decide (x ∈ ps))).toFinset = ps.toFinset := by
    ext y
    simp only [List.mem_toFinset, List.mem_filter, decide_eq_true_eq]
    exact ⟨fun h => h.2, fun h => ⟨hsub y h, h⟩⟩
  have h1 := List.toFinset_card_of_nodup hFnd
  have h2 := List.toFinset_card_of_nodup hps
  rw [hfs, h2] at h1
  exact h1.symm

/-! ### Cycles, ranks and emitted prefixes -/

/-- A ranking that strictly drops along every dependency edge certifies
acyclicity; used to discharge acyclicity hypotheses on concrete trees. -/
theorem acyclic_of_rank (deps : DependencyTree) (rank : TableName → Nat)
    (h : ∀ p ∈ deps, ∀ x ∈ p.2, rank x < rank p.1) :
    ∀ c, ¬ Relation.TransGen (edgeOf deps) c c := by
  have hstep : ∀ a b, edgeOf deps a b → rank b < rank a := by
    rintro a b ⟨ps, hmem, hb⟩
    exact h (a, ps) hmem b hb
  have hrank : ∀ a b, Relation.TransGen (edgeOf deps) a b → rank b < rank a := by
    intro a b htg
    induction htg with
    | single h1 => exact hstep _ _ h1
    | tail _ h1 ih => exact lt_trans (hstep _ _ h1) ih
  intro c hc
  exact lt_irrefl _ (hrank c c hc)

theorem transGen_mem_before (deps0 : DependencyTree) (sorted : List TableName)
    (hord : OrderOK deps0 sorted) :
    ∀ c x, Relation.TransGen (edgeOf deps0) c x →
      ∀ l₁ l₂, sorted = l₁ ++ c :: l₂ → x ∈ l₁ := by
  intro c x htg
  induction htg with
  | single h1 =>
    intro l₁ l₂ hdec
    exact hord l₁ c l₂ hdec _ h1
  | @tail b x' hab h1 ih =>
    intro l₁ l₂ hdec
    have hy : b ∈ l₁ := ih l₁ l₂ hdec
    obtain ⟨m₁, m₂, hm⟩ := List.append_of_mem hy
    have hdec2 : sorted = m₁ ++ b :: (m₂ ++ c :: l₂) := by
      rw [hdec, hm]
      simp
    have hx := hord m₁ b (m₂ ++ c :: l₂) hdec2 x' h1
    rw [hm]
    exact List.mem_append_left _ hx

theorem no_cycle_of_sorted (deps0 : DependencyTree) (sorted : List TableName)
    (hnd : sorted.Nodup) (hord : OrderOK deps0 sorted) :
    ∀ c ∈ sorted, ¬ Relation.TransGen (edgeOf deps0) c c := by
  intro c hc htg
  obtain ⟨l₁, l₂, hdec⟩ := List.append_of_mem hc
  have hcl := transGen_mem_before deps0 sorted hord c c htg l₁ l₂ hdec
  rw [hdec, List.nodup_append] at hnd
  exact hnd.2.2 hcl (List.mem_cons_self _ _)

/-- A nonempty sub-collection in which every node has a successor inside
the collection contains a cycle. -/
theorem cycle_of_all_succ (deps0 : DependencyTree) (S : List TableName) (hne : S ≠ [])
    (hsucc : ∀ c ∈ S, ∃ x ∈ S, edgeOf deps0 c x) :
    ∃ c, Relation.TransGen (edgeOf deps0) c c := by
  by_contra hno
  push_neg at hno
  letI : Fintype {x // x ∈ S.toFinset} := FinsetCoe.fintype _
  let r : {x // x ∈ S.toFinset} → {x // x ∈ S.toFinset} → Prop :=
    fun a b => Relation.TransGen (edgeOf deps0) b.val a.val
  haveI : IsTrans _ r := ⟨fun _ _ _ hab hbc => Relation.TransGen.trans hbc hab⟩
  haveI : IsIrrefl _ r := ⟨fun a haa => hno a.val haa⟩
  have hwf := Finite.wellFounded_of_trans_of_irrefl r
  obtain ⟨c0, hc0⟩ : ∃ c, c ∈ S := by
    cases S with
    | nil => exact absurd rfl hne
    | cons a l => exact ⟨a, List.mem_cons_self a l⟩
  obtain ⟨m, _, hmin⟩ := hwf.has_min Set.univ ⟨⟨c0, List.mem_toFinset.mpr hc0⟩, trivial⟩
  obtain ⟨x, hxS, hedge⟩ := hsucc m.val (List.mem_toFinset.mp m.property)
  exact hmin ⟨x, List.mem_toFinset.mpr hxS⟩ trivial (Relation.TransGen.single hedge)

theorem append_singleton_cases {α : Type} (s : List α) (t : α) (l₁ : List α) (c : α)
    (l₂ : List α) (h : s ++ [t] = l₁ ++ c :: l₂) :
    (∃ l₂', s = l₁ ++ c :: l₂' ∧ l₂ = l₂' ++ [t]) ∨ (l₁ = s ∧ c = t ∧ l₂ = []) := by
  rcases List.eq_nil_or_concat l₂ with rfl | ⟨l₂', d, rfl⟩
  · right
    obtain ⟨h1, h2⟩ := List.append_inj' h (by simp)
    exact ⟨h1.symm, (List.cons.injEq _ _ _ _ ▸ h2).1.symm, rfl⟩
  · left
    rw [List.concat_eq_append, ← List.cons_append, ← List.append_assoc] at h
    obtain ⟨h1, h2⟩ := List.append_inj' h (by simp)
    have hd : t = d := by simpa using h2
    exact ⟨l₂', h1, by rw [hd, List.concat_eq_append]⟩

/-! ### Degree bookkeeping of the inner sort pass -/

theorem countPos_cons (p : TableName × Int) (m : List (TableName × Int)) :
    countPos (p :: m) = (if 0 < p.2 then 1 else 0) + countPos m := by
  by_cases h : 0 < p.2 <;> simp [countPos, List.filter_cons, h] <;> omega

theorem countPos_setVal (m : List (TableName × Int)) (k : TableName) (v : Int) :
    countPos (setVal m k v) + (if 0 < getDeg m k then 1 else 0) =
      countPos m + (if 0 < v then 1 else 0) := by
  induction m with
  | nil =>
    have h0 : getDeg ([] : List (TableName × Int)) k = 0 := rfl
    rw [h0]
    by_cases h : 0 < v <;> simp [setVal, countPos, List.filter_cons, h]
  | cons p rest ih =>
    rcases p with ⟨k', v'⟩
    by_cases h : k' = k
    · subst h
      have hdeg : getDeg ((k', v') :: rest) k' = v' := by
        simp [getDeg, lookupKey]
      rw [hdeg]
      have hs : setVal ((k', v') :: rest) k' v = (k', v) :: rest := by
        simp [setVal]
      rw [hs, countPos_cons, countPos_cons]
      dsimp only
      omega
    · have hdeg : getDeg ((k', v') :: rest) k = getDeg rest k := by
        simp [getDeg, lookupKey, h]
      have hs : setVal ((k', v') :: rest) k v = (k', v') :: setVal rest k v := by
        simp [setVal, h]
      rw [hdeg, hs, countPos_cons, countPos_cons]
      dsimp only
      omega

theorem decPass_getDeg_notmem (t : TableName) :
    ∀ (deps : DependencyTree) (degrees : List (TableName × Int)) (queue : List TableName)
      (c : TableName), c ∉ keysOf deps →
      getDeg (decPass t deps degrees queue).1 c = getDeg degrees c := by
  intro deps
  induction deps with
  | nil =>
    intro degrees queue c _
    rfl
  | cons p rest ih =>
    intro degrees queue c hc
    rcases p with ⟨child, parents⟩
    have hc1 : c ≠ child := fun h => hc (by simp [keysOf, h])
    have hc2 : c ∉ keysOf rest := fun h => hc (by
      simp only [keysOf, List.map_cons, List.mem_cons]
      exact Or.inr h)
    by_cases hmem : t ∈ parents
    · simp only [decPass, if_pos hmem]
      rw [ih _ _ _ hc2, getDeg_setVal_ne _ _ _ _ hc1]
    · simp only [decPass, if_neg hmem]
      exact ih _ _ _ hc2

theorem decPass_getDeg_mem (t : TableName) :
    ∀ (deps : DependencyTree) (degrees : List (TableName × Int)) (queue : List TableName)
      (c : TableName) (ps : List TableName), NodupKeys deps → (c, ps) ∈ deps →
      getDeg (decPass t deps degrees queue).1 c =
        getDeg degrees c - (if t ∈ ps then 1 else 0) := by
  intro deps
  induction deps with
  | nil =>
    intro degrees queue c ps _ hmem
    simp at hmem
  | cons p rest ih =>
    intro degrees queue c ps hk hmem
    rcases p with ⟨child, parents⟩
    obtain ⟨hknotin, hkrest⟩ := List.nodup_cons.mp hk
    rcases List.mem_cons.mp hmem with heq | hmem2
    · injection heq with e1 e2
      subst e1
      subst e2
      have hcnotin : c ∉ keysOf rest := hknotin
      by_cases hpar : t ∈ ps
      · simp only [decPass, if_pos hpar]
        rw [decPass_getDeg_notmem t rest _ _ c hcnotin, getDeg_setVal_self]
      · simp only [decPass, if_neg hpar]
        rw [decPass_getDeg_notmem t rest _ _ c hcnotin]
        simp [hpar]
    · have hcchild : c ≠ child := by
        intro h0
        subst h0
        exact hknotin (mem_keysOf.mpr ⟨ps, hmem2⟩)
      by_cases hpar : t ∈ parents
      · simp only [decPass, if_pos hpar]
        rw [ih _ _ _ _ hkrest hmem2, getDeg_setVal_ne _ _ _ _ hcchild]
      · simp only [decPass, if_neg hpar]
        exact ih _ _ _ _ hkrest hmem2

theorem decPass_queue (t : TableName) :
    ∀ (deps : DependencyTree) (degrees : List (TableName × Int)) (queue : List TableName),
      NodupKeys deps →
      (decPass t deps degrees queue).2 =
        queue ++ (deps.filter (fun p =>
          decide (t ∈ p.2) && decide (getDeg degrees p.1 = 1))).map Prod.fst := by
  intro deps
  induction deps with
  | nil =>
    intro degrees queue _
    simp [decPass]
  | cons p rest ih =>
    intro degrees queue hk
    rcases p with ⟨child, parents⟩
    obtain ⟨hknotin, hkrest⟩ := List.nodup_cons.mp hk
    have hfc : ∀ w : Int, rest.filter (fun p =>
        decide (t ∈ p.2) && decide (getDeg (setVal degrees child w) p.1 = 1)) =
        rest.filter (fun p => decide (t ∈ p.2) && decide (getDeg degrees p.1 = 1)) := by
      intro w
      apply List.filter_congr
      intro q hq
      have hqc : q.1 ≠ child := by
        intro h0
        exact hknotin (h0 ▸ mem_keysOf.mpr ⟨q.2, hq⟩)
      rw [getDeg_setVal_ne _ _ _ _ hqc]
    by_cases hmem : t ∈ parents
    · simp only [decPass, if_pos hmem]
      by_cases hdeg : getDeg degrees child - 1 = 0
      · have hone : getDeg degrees child = 1 := by omega
        rw [if_pos hdeg, ih _ _ hkrest, hfc]
        simp [List.filter_cons, hmem, hone]
      · have hnotone : ¬ (getDeg degrees child = 1) := by omega
        rw [if_neg hdeg, ih _ _ hkrest, hfc]
        simp [List.filter_cons, hmem, hnotone]
    · simp only [decPass, if_neg hmem]
      rw [ih _ _ hkrest]
      simp [List.filter_cons, hmem]

theorem decPass_measure (t : TableName) :
    ∀ (deps : DependencyTree) (degrees : List (TableName × Int)) (queue : List TableName),
      (decPass t deps degrees queue).2.length + countPos (decPass t deps degrees queue).1 ≤
        queue.length + countPos degrees := by
  intro deps
  induction deps with
  | nil =>
    intro degrees queue
    simp [decPass]
  | cons p rest ih =>
    intro degrees queue
    rcases p with ⟨child, parents⟩
    by_cases hmem : t ∈ parents
    · simp only [decPass, if_pos hmem]
      have hset := countPos_setVal degrees child (getDeg degrees child - 1)
      by_cases hdeg : getDeg degrees child - 1 = 0
      · rw [if_pos hdeg]
        have h1 := ih (setVal degrees child (getDeg degrees child - 1)) (queue ++ [child])
        rw [List.length_append, List.length_singleton] at h1
        have hone : getDeg degrees child = 1 := by omega
        rw [hone] at hset h1 ⊢
        simp only [show (1 : Int) - 1 = 0 from rfl] at hset h1 ⊢
        simp only [show ¬ ((0:Int) < 0) from by omega, if_false,
          show (0:Int) < 1 from by omega, if_true] at hset
        omega
      · rw [if_neg hdeg]
        have h1 := ih (setVal degrees child (getDeg degrees child - 1)) queue
        by_cases hp1 : 0 < getDeg degrees child <;>
          by_cases hp2 : 0 < getDeg degrees child - 1 <;>
            simp only [hp1, hp2, if_true, if_false] at hset <;> omega
    · simp only [decPass, if_neg hmem]
      exact ih degrees queue

/-! ### Establishing the invariant -/

theorem eraseKey_filter (l : DependencyTree) (hk : NodupKeys l) (S : List TableName)
    (t : TableName) :
    eraseKey (l.filter (fun p => decide (p.1 ∉ S))) t =
      l.filter (fun p => decide (p.1 ∉ S ++ [t])) := by
  induction l with
  | nil => rfl
  | cons p rest ih =>
    obtain ⟨hknotin, hkrest⟩ := List.nodup_cons.mp hk
    rcases p with ⟨k1, v1⟩
    by_cases hmemS : k1 ∈ S
    · have h1 : (decide ((k1, v1).1 ∉ S)) = false := by simp [hmemS]
      have h2 : (decide ((k1, v1).1 ∉ S ++ [t])) = false := by simp [hmemS]
      simp only [List.filter_cons, h1, h2, Bool.false_eq_true, if_false]
      exact ih hkrest
    · by_cases hpt : k1 = t
      · have h1 : (decide ((k1, v1).1 ∉ S)) = true := by simp [hmemS]
        have h2 : (decide ((k1, v1).1 ∉ S ++ [t])) = false := by simp [hpt]
        simp only [List.filter_cons, h1, h2, Bool.false_eq_true, if_true, if_false]
        simp only [eraseKey, if_pos hpt]
        apply List.filter_congr
        intro q hq
        have hqt : q.1 ≠ t := by
          intro h0
          apply hknotin
          rw [← hpt] at h0
          exact h0 ▸ mem_keysOf.mpr ⟨q.2, hq⟩
        simp [List.mem_append, hqt]
      · have h1 : (decide ((k1, v1).1 ∉ S)) = true := by simp [hmemS]
        have h2 : (decide ((k1, v1).1 ∉ S ++ [t])) = true := by simp [hmemS, hpt]
        simp only [List.filter_cons, h1, h2, if_true]
        simp only [eraseKey, if_neg hpt]
        rw [ih hkrest]

theorem foldl_setVal_eq : ∀ (l : DependencyTree) (acc : List (TableName × Int)),
    (∀ p ∈ l, p.1 ∉ keysOf acc) → NodupKeys l →
    l.foldl (fun m p => setVal m p.1 ((p.2.length : Int))) acc =
      acc ++ l.map (fun p => (p.1, (p.2.length : Int))) := by
  intro l
  induction l with
  | nil =>
    intro acc _ _
    simp
  | cons p rest ih =>
    intro acc hdisj hk
    obtain ⟨hknotin, hkrest⟩ := List.nodup_cons.mp hk
    rw [List.foldl_cons, setVal_not_mem_append _ _ _ (hdisj p (List.mem_cons_self _ _))]
    rw [ih (acc ++ [(p.1, (p.2.length : Int))]) ?_ hkrest]
    · simp [List.append_assoc]
    · intro q hq
      have hq1 : q.1 ∉ keysOf acc := hdisj q (List.mem_cons_of_mem _ hq)
      have hq2 : q.1 ≠ p.1 := by
        intro h0
        exact hknotin (h0 ▸ mem_keysOf.mpr ⟨q.2, hq⟩)
      simp only [keysOf, List.map_append, List.map_cons, List.map_nil, List.mem_append,
        List.mem_singleton]
      rintro (h3 | h3)
      · exact hq1 h3
      · exact hq2 h3

theorem buildDegrees_eq (deps : DependencyTree) (hk : NodupKeys deps) :
    buildDegrees deps = deps.map (fun p => (p.1, (p.2.length : Int))) := by
  have h := foldl_setVal_eq deps [] (by simp [keysOf]) hk
  simpa [buildDegrees] using h

theorem keysOf_buildDegrees (deps : DependencyTree) (hk : NodupKeys deps) :
    keysOf (buildDegrees deps) = keysOf deps := by
  rw [buildDegrees_eq deps hk]
  simp [keysOf, List.map_map, Function.comp]

theorem nodupKeys_buildDegrees (deps : DependencyTree) (hk : NodupKeys deps) :
    NodupKeys (buildDegrees deps) := by
  rw [NodupKeys, keysOf_buildDegrees deps hk]
  exact hk

theorem getDeg_buildDegrees (deps : DependencyTree) (hk : NodupKeys deps)
    (c : TableName) (ps : List TableName) (hmem : (c, ps) ∈ deps) :
    getDeg (buildDegrees deps) c = ps.length := by
  rw [buildDegrees_eq deps hk]
  have hmem2 : (c, (ps.length : Int)) ∈ deps.map (fun p => (p.1, (p.2.length : Int))) := by
    have := List.mem_map_of_mem (fun p : TableName × List TableName =>
      (p.1, (p.2.length : Int))) hmem
    simpa using this
  have hknd : NodupKeys (deps.map (fun p => (p.1, (p.2.length : Int)))) := by
    rw [← buildDegrees_eq deps hk]
    exact nodupKeys_buildDegrees deps hk
  simp [getDeg, lookupKey_eq_of_mem hknd hmem2]

theorem kahnInv_init (deps0 : DependencyTree) (hk0 : NodupKeys deps0) :
    KahnInv deps0 deps0 (buildDegrees deps0) (initQueue (buildDegrees deps0)) [] := by
  have hkeys := keysOf_buildDegrees deps0 hk0
  have hknd := nodupKeys_buildDegrees deps0 hk0
  have hqsub : ∀ q ∈ initQueue (buildDegrees deps0), q ∈ keysOf deps0 := by
    intro q hq
    rw [← hkeys]
    exact ((List.filter_sublist _).map Prod.fst).subset hq
  have hqdeg : ∀ q ∈ initQueue (buildDegrees deps0), getDeg (buildDegrees deps0) q = 0 := by
    intro q hq
    obtain ⟨e, he, hfst⟩ := List.mem_map.mp hq
    obtain ⟨hebd, hez⟩ := List.mem_filter.mp he
    rw [decide_eq_true_eq] at hez
    have : (q, e.2) ∈ buildDegrees deps0 := by
      rw [← hfst]
      exact hebd
    rw [getDeg, lookupKey_eq_of_mem hknd this]
    simp [hez]
  refine ⟨?_, ?_, ?_, ?_, ?_, ?_, ?_, ?_, ?_⟩
  · simp
  · simp only [List.nil_append]
    exact ((List.filter_sublist _).map Prod.fst).nodup hknd
  · simp
  · intro q hq
    exact hqsub q hq
  · intro p hp
    have : getDeg (buildDegrees deps0) p.1 = p.2.length := getDeg_buildDegrees deps0 hk0 _ _ hp
    simp [this]
  · intro p hp hdeg
    have hlen : getDeg (buildDegrees deps0) p.1 = p.2.length := getDeg_buildDegrees deps0 hk0 _ _ hp
    have hmem2 : (p.1, (p.2.length : Int)) ∈ buildDegrees deps0 := by
      rw [buildDegrees_eq deps0 hk0]
      have := List.mem_map_of_mem (fun p : TableName × List TableName =>
        (p.1, (p.2.length : Int))) hp
      simpa using this
    refine List.mem_map.mpr ⟨(p.1, (p.2.length : Int)), List.mem_filter.mpr ⟨hmem2, ?_⟩, rfl⟩
    rw [hdeg] at hlen
    simp [← hlen]
  · intro q hq x hedge
    exfalso
    obtain ⟨e, he, hfst⟩ := List.mem_map.mp hq
    obtain ⟨hebd, hez⟩ := List.mem_filter.mp he
    rw [decide_eq_true_eq] at hez
    rw [buildDegrees_eq deps0 hk0] at hebd
    obtain ⟨p, hp, hpe⟩ := List.mem_map.mp hebd
    obtain ⟨ps0, hm0, hx0⟩ := hedge
    have hq1 : p.1 = q := by
      rw [← hfst, ← hpe]
    have hlen0 : (p.2.length : Int) = 0 := by
      have : e.2 = (p.2.length : Int) := by
        rw [← hpe]
      rw [← this, hez]
    have hps2 : p.2 = [] := by
      have : p.2.length = 0 := by exact_mod_cast hlen0
      exact List.length_eq_zero.mp this
    have hpm : (q, p.2) ∈ deps0 := by
      rw [← hq1]
      exact hp
    have := value_unique hk0 hm0 hpm
    rw [this, hps2] at hx0
    simp at hx0
  · exact hqdeg
  · intro l₁ c l₂ h
    exact absurd h (by simp)

/-- One iteration of the sort loop preserves the invariant: the dequeued
table `t` is emitted, deleted from the map, and every remaining dependant
of `t` has its degree decremented (enqueued on reaching zero). -/
theorem kahnInv_step (deps0 : DependencyTree) (hk0 : NodupKeys deps0)
    (deps : DependencyTree) (tableDegree : List (TableName × Int))
    (queue' sorted : List TableName) (t : TableName)
    (hinv : KahnInv deps0 deps tableDegree (t :: queue') sorted) :
    KahnInv deps0 (eraseKey deps t)
      (decPass t (eraseKey deps t) tableDegree queue').1
      (decPass t (eraseKey deps t) tableDegree queue').2
      (sorted ++ [t]) := by
  obtain ⟨hdeq, hnd, hskeys, hqkeys, hdegeq, hdzq, hqready, hqdeg, horder⟩ := hinv
  have hkdeps : NodupKeys deps := by
    rw [hdeq]
    exact nodupKeys_of_sublist (List.filter_sublist _) hk0
  have hsubl : (eraseKey deps t).Sublist deps := eraseKey_sublist deps t
  have hkdeps' : NodupKeys (eraseKey deps t) := nodupKeys_of_sublist hsubl hkdeps
  have hdeps'eq : eraseKey deps t = deps0.filter (fun p => decide (p.1 ∉ sorted ++ [t])) := by
    rw [hdeq, eraseKey_filter deps0 hk0 sorted t]
  have hndparts := List.nodup_append.mp hnd
  have hndsorted : sorted.Nodup := hndparts.1
  have hndq : (t :: queue').Nodup := hndparts.2.1
  have hdisj : sorted.Disjoint (t :: queue') := hndparts.2.2
  have htnotsorted : t ∉ sorted := fun h0 => hdisj h0 (List.mem_cons_self _ _)
  have htnotq : t ∉ queue' := (List.nodup_cons.mp hndq).1
  have hndq' : queue'.Nodup := (List.nodup_cons.mp hndq).2
  have hndst2 : (sorted ++ [t]).Nodup := by
    rw [List.nodup_append]
    exact ⟨hndsorted, List.nodup_singleton t, by
      intro a ha hat
      rw [List.mem_singleton] at hat
      exact hdisj ha (hat ▸ List.mem_cons_self _ _)⟩
  have hkeys'not : ∀ k ∈ keysOf (eraseKey deps t), k ∉ sorted ++ [t] := by
    intro k hk
    obtain ⟨v, hv⟩ := mem_keysOf.mp hk
    rw [hdeps'eq] at hv
    have h2 := (List.mem_filter.mp hv).2
    rwa [decide_eq_true_eq] at h2
  have hq2 := decPass_queue t (eraseKey deps t) tableDegree queue' hkdeps'
  have hPnd : ((List.filter (fun p => decide (t ∈ p.2) &&
      decide (getDeg tableDegree p.1 = 1)) (eraseKey deps t)).map Prod.fst).Nodup :=
    ((List.filter_sublist _).map Prod.fst).nodup hkdeps'
  have hPkeys : ∀ x ∈ (List.filter (fun p => decide (t ∈ p.2) &&
      decide (getDeg tableDegree p.1 = 1)) (eraseKey deps t)).map Prod.fst,
      x ∈ keysOf (eraseKey deps t) :=
    fun x hx => ((List.filter_sublist _).map Prod.fst).subset hx
  have hPprop : ∀ x ∈ (List.filter (fun p => decide (t ∈ p.2) &&
      decide (getDeg tableDegree p.1 = 1)) (eraseKey deps t)).map Prod.fst,
      ∃ ps, (x, ps) ∈ eraseKey deps t ∧ t ∈ ps ∧ getDeg tableDegree x = 1 := by
    intro x hx
    obtain ⟨e, he, hfst⟩ := List.mem_map.mp hx
    obtain ⟨hed, hcond⟩ := List.mem_filter.mp he
    rw [Bool.and_eq_true, decide_eq_true_eq, decide_eq_true_eq] at hcond
    refine ⟨e.2, ?_, hcond.1, ?_⟩
    · rw [← hfst]
      exact hed
    · rw [← hfst]
      exact hcond.2
  have hmem_up : ∀ p, p ∈ eraseKey deps t → p ∈ deps := fun p hp => hsubl.subset hp
  have hmem_deps0 : ∀ p, p ∈ deps → p ∈ deps0 := by
    intro p hp
    rw [hdeq] at hp
    exact (List.filter_sublist _).subset hp
  have htkeys0 : t ∈ keysOf deps0 := by
    have h1 : t ∈ keysOf deps := hqkeys t (List.mem_cons_self _ _)
    have h2 : (keysOf deps).Sublist (keysOf deps0) := by
      rw [hdeq]
      exact keysOf_sublist (List.filter_sublist _)
    exact h2.subset h1
  refine ⟨hdeps'eq, ?_, ?_, ?_, ?_, ?_, ?_, ?_, ?_⟩
  · -- nodup
    rw [hq2, List.nodup_append]
    refine ⟨hndst2, ?_, ?_⟩
    · rw [List.nodup_append]
      refine ⟨hndq', hPnd, ?_⟩
      intro a ha haP
      obtain ⟨ps, _, _, hdeg1⟩ := hPprop a haP
      have h0 := hqdeg a (List.mem_cons_of_mem _ ha)
      rw [h0] at hdeg1
      exact absurd hdeg1 (by norm_num)
    · intro a ha haQ
      rcases List.mem_append.mp haQ with haq | haP
      · rcases List.mem_append.mp ha with has | hat
        · exact hdisj has (List.mem_cons_of_mem _ haq)
        · rw [List.mem_singleton] at hat
          exact htnotq (hat ▸ haq)
      · exact hkeys'not a (hPkeys a haP) ha
  · -- sorted_keys
    intro x hx
    rcases List.mem_append.mp hx with hxs | hxt
    · exact hskeys x hxs
    · rw [List.mem_singleton] at hxt
      exact hxt ▸ htkeys0
  · -- queue_keys
    rw [hq2]
    intro q hq
    rcases List.mem_append.mp hq with hqq | hqP
    · have hqk : q ∈ keysOf deps := hqkeys q (List.mem_cons_of_mem _ hqq)
      obtain ⟨v, hv⟩ := mem_keysOf.mp hqk
      rw [hdeq] at hv
      obtain ⟨hv0, hcond⟩ := List.mem_filter.mp hv
      rw [decide_eq_true_eq] at hcond
      have hqt : q ≠ t := fun h0 => htnotq (h0 ▸ hqq)
      rw [hdeps'eq]
      refine mem_keysOf.mpr ⟨v, List.mem_filter.mpr ⟨hv0, ?_⟩⟩
      rw [decide_eq_true_eq, List.mem_append, List.mem_singleton]
      rintro (h3 | h3)
      · exact hcond h3
      · exact hqt h3
    · exact hPkeys q hqP
  · -- deg_eq
    intro p hp
    have hdg := decPass_getDeg_mem t (eraseKey deps t) tableDegree queue' p.1 p.2 hkdeps' hp
    have hold := hdegeq p (hmem_up p hp)
    rw [hdg, hold, List.filter_append]
    by_cases ht : t ∈ p.2 <;>
      simp [ht] <;> push_cast <;> ring
  · -- deg_zero_queued
    intro p hp hdeg0
    rw [hq2]
    have hdg := decPass_getDeg_mem t (eraseKey deps t) tableDegree queue' p.1 p.2 hkdeps' hp
    by_cases ht : t ∈ p.2
    · have hone : getDeg tableDegree p.1 = 1 := by
        rw [hdg] at hdeg0
        simp [ht] at hdeg0
        omega
      refine List.mem_append.mpr (Or.inr (List.mem_map.mpr
        ⟨p, List.mem_filter.mpr ⟨hp, ?_⟩, rfl⟩))
      simp [ht, hone]
    · have h0 : getDeg tableDegree p.1 = 0 := by
        rw [hdg] at hdeg0
        simpa [ht] using hdeg0
      have hmem := hdzq p (hmem_up p hp) h0
      rcases List.mem_cons.mp hmem with heq | hmemq
      · exfalso
        have hpk : p.1 ∈ keysOf (eraseKey deps t) := mem_keysOf.mpr ⟨p.2, hp⟩
        exact hkeys'not p.1 hpk (List.mem_append_right _ (by simp [heq]))
      · exact List.mem_append_left _ hmemq
  · -- queue_ready
    rw [hq2]
    intro q hq x hedge
    rcases List.mem_append.mp hq with hqq | hqP
    · exact List.mem_append_left _ (hqready q (List.mem_cons_of_mem _ hqq) x hedge)
    · obtain ⟨ps, hpsmem, htps, hdeg1⟩ := hPprop q hqP
      obtain ⟨ps0, hm0, hx0⟩ := hedge
      have hqdeps : (q, ps) ∈ deps := hmem_up _ hpsmem
      have hqdeps0 : (q, ps) ∈ deps0 := hmem_deps0 _ hqdeps
      have hps0eq : ps0 = ps := value_unique hk0 hm0 hqdeps0
      rw [hps0eq] at hx0
      have hold := hdegeq (q, ps) hqdeps
      dsimp only at hold
      rw [hdeg1] at hold
      have hflen : (sorted.filter (fun x => decide (x ∈ ps))).length + 1 = ps.length := by
        omega
      have hcount : ((sorted ++ [t]).filter (fun x => decide (x ∈ ps))).length = ps.length := by
        rw [List.filter_append]
        simp [htps]
        omega
      exact mem_of_filter_count (sorted ++ [t]) ps hndst2 hcount x hx0
  · -- queue_deg
    rw [hq2]
    intro q hq
    rcases List.mem_append.mp hq with hqq | hqP
    · have h0 := hqdeg q (List.mem_cons_of_mem _ hqq)
      by_cases hqk : q ∈ keysOf (eraseKey deps t)
      · obtain ⟨v, hv⟩ := mem_keysOf.mp hqk
        have hdg := decPass_getDeg_mem t (eraseKey deps t) tableDegree queue' q v hkdeps' hv
        have htv : t ∉ v := by
          intro htv
          have hold := hdegeq (q, v) (hmem_up _ hv)
          dsimp only at hold
          rw [h0] at hold
          have hflen : (sorted.filter (fun x => decide (x ∈ v))).length = v.length := by
            omega
          exact htnotsorted (mem_of_filter_count sorted v hndsorted hflen t htv)
        rw [hdg, h0]
        simp [htv]
      · rw [decPass_getDeg_notmem t (eraseKey deps t) _ _ q hqk]
        exact h0
    · obtain ⟨ps, hpsmem, htps, hdeg1⟩ := hPprop q hqP
      have hdg := decPass_getDeg_mem t (eraseKey deps t) tableDegree queue' q ps hkdeps' hpsmem
      rw [hdg, hdeg1]
      simp [htps]
  · -- order
    intro l₁ c l₂ hsplit x hedge
    rcases append_singleton_cases sorted t l₁ c l₂ hsplit with ⟨l₂', hs1, _⟩ | ⟨hl1, hct, _⟩
    · exact horder l₁ c l₂' hs1 x hedge
    · rw [hl1]
      exact hqready c (by rw [hct]; exact List.mem_cons_self t queue') x hedge

/-- Master lemma: started with enough fuel (the measure
`queue length + number of positive degrees`, which strictly decreases each
iteration) and an invariant-satisfying state, the sort loop ends in an
invariant-satisfying state with an empty queue.  In particular the
zero-fuel fallback of `kahnLoopF` is never taken. -/
theorem kahnLoopF_spec (deps0 : DependencyTree) (hk0 : NodupKeys deps0) :
    ∀ (fuel : Nat) (deps : DependencyTree) (tableDegree : List (TableName × Int))
      (queue sorted : List TableName),
      queue.length + countPos tableDegree ≤ fuel →
      KahnInv deps0 deps tableDegree queue sorted →
      ∃ degF, KahnInv deps0 (kahnLoopF fuel deps tableDegree queue sorted).2 degF []
        (kahnLoopF fuel deps tableDegree queue sorted).1 := by
  intro fuel
  induction fuel with
  | zero =>
    intro deps tableDegree queue sorted hfuel hinv
    have hq : queue = [] := by
      cases queue with
      | nil => rfl
      | cons a b => simp at hfuel
    subst hq
    exact ⟨tableDegree, hinv⟩
  | succ fuel ih =>
    intro deps tableDegree queue sorted hfuel hinv
    cases queue with
    | nil => exact ⟨tableDegree, hinv⟩
    | cons t queue' =>
      have hstep : kahnLoopF (fuel + 1) deps tableDegree (t :: queue') sorted =
          kahnLoopF fuel (eraseKey deps t)
            (decPass t (eraseKey deps t) tableDegree queue').1
            (decPass t (eraseKey deps t) tableDegree queue').2 (sorted ++ [t]) := rfl
      rw [hstep]
      apply ih
      · have hm := decPass_measure t (eraseKey deps t) tableDegree queue'
        have hlen : (t :: queue').length = queue'.length + 1 := by simp
        omega
      · exact kahnInv_step deps0 hk0 deps tableDegree queue' sorted t hinv

/-- Unfolding of `sortTablesByDependencies` in terms of the loop. -/
theorem sortTables_unfold (deps : DependencyTree) :
    sortTablesByDependencies deps =
      (if (kahnLoopF ((initQueue (buildDegrees deps)).length + countPos (buildDegrees deps))
            deps (buildDegrees deps) (initQueue (buildDegrees deps)) []).1.length = deps.length
        then (Except.ok (kahnLoopF ((initQueue (buildDegrees deps)).length +
                countPos (buildDegrees deps)) deps (buildDegrees deps)
                (initQueue (buildDegrees deps)) []).1,
              (kahnLoopF ((initQueue (buildDegrees deps)).length + countPos (buildDegrees deps))
                deps (buildDegrees deps) (initQueue (buildDegrees deps)) []).2)
        else (Except.error (apperrorsNew ErrCode.ErrMigrateProcess
                ("cyclic dependency or incomplete dependency graph detected")),
              (kahnLoopF ((initQueue (buildDegrees deps)).length + countPos (buildDegrees deps))
                deps (buildDegrees deps) (initQueue (buildDegrees deps)) []).2)) := rfl

/-- C1: for an acyclic dependency tree (a map: distinct keys; dependency
lists are duplicate-free sets whose members are themselves keys, the
data-model invariant of spec section 3), the sorter succeeds and its
output lists every key exactly once (no duplicates, membership equal to
the key set), with every table preceded by all tables it depends on. -/
theorem sortTablesByDependencies_topological (deps : DependencyTree)
    (hk : NodupKeys deps)
    (hclosed : ∀ p ∈ deps, ∀ x ∈ p.2, x ∈ keysOf deps)
    (hnodupP : ∀ p ∈ deps, p.2.Nodup)
    (hacyc : ∀ c, ¬ Relation.TransGen (edgeOf deps) c c) :
    ∃ sorted, (sortTablesByDependencies deps).1 = Except.ok sorted ∧
      sorted.Nodup ∧ (∀ k, k ∈ sorted ↔ k ∈ keysOf deps) ∧ OrderOK deps sorted := by
  obtain ⟨degF, hfin⟩ := kahnLoopF_spec deps hk
    ((initQueue (buildDegrees deps)).length + countPos (buildDegrees deps))
    deps (buildDegrees deps) (initQueue (buildDegrees deps)) [] le_rfl (kahnInv_init deps hk)
  set r := kahnLoopF ((initQueue (buildDegrees deps)).length + countPos (buildDegrees deps))
    deps (buildDegrees deps) (initQueue (buildDegrees deps)) [] with hr
  obtain ⟨hdeq, hnd, hskeys, _, hdegeq, hdzq, _, _, horder⟩ := hfin
  have hndsorted : r.1.Nodup := by simpa using hnd
  have hsub : ∀ k ∈ r.1, k ∈ keysOf deps := hskeys
  have hempty : r.2 = [] := by
    by_contra hne
    have hsucc : ∀ c ∈ keysOf r.2, ∃ x ∈ keysOf r.2, edgeOf deps c x := by
      intro c hc
      obtain ⟨ps, hps⟩ := mem_keysOf.mp hc
      have hdne : getDeg degF c ≠ 0 := by
        intro h0
        have hmm := hdzq (c, ps) hps h0
        simp at hmm
      have hdeg := hdegeq (c, ps) hps
      dsimp only at hdeg
      have hmem_deps : (c, ps) ∈ deps := by
        rw [hdeq] at hps
        exact (List.filter_sublist _).subset hps
      have hpsnd : ps.Nodup := hnodupP (c, ps) hmem_deps
      have hnotall : ¬ (∀ x ∈ ps, x ∈ r.1) := by
        intro hall
        have hcnt := filter_count_of_subset r.1 ps hndsorted hpsnd hall
        rw [hcnt] at hdeg
        omega
      push_neg at hnotall
      obtain ⟨x, hxps, hxnot⟩ := hnotall
      have hxkeys : x ∈ keysOf deps := hclosed (c, ps) hmem_deps x hxps
      obtain ⟨v, hv⟩ := mem_keysOf.mp hxkeys
      have hvr2 : (x, v) ∈ r.2 := by
        rw [hdeq]
        exact List.mem_filter.mpr ⟨hv, by simp [hxnot]⟩
      exact ⟨x, mem_keysOf.mpr ⟨v, hvr2⟩, ⟨ps, hmem_deps, hxps⟩⟩
    have hkeysne : keysOf r.2 ≠ [] := by
      intro h0
      exact hne (List.map_eq_nil.mp h0)
    obtain ⟨c, hcyc⟩ := cycle_of_all_succ deps (keysOf r.2) hkeysne hsucc
    exact hacyc c hcyc
  have hkeysub : ∀ k ∈ keysOf deps, k ∈ r.1 := by
    intro k hk2
    obtain ⟨v, hv⟩ := mem_keysOf.mp hk2
    by_contra hknot
    have hmm : (k, v) ∈ r.2 := by
      rw [hdeq]
      exact List.mem_filter.mpr ⟨hv, by simp [hknot]⟩
    rw [hempty] at hmm
    simp at hmm
  have hlen : r.1.length = deps.length := by
    have h1 := (hndsorted.subperm (fun x hx => hsub x hx)).length_le
    have h2 := ((hk : (keysOf deps).Nodup).subperm (fun x hx => hkeysub x hx)).length_le
    have hkl : (keysOf deps).length = deps.length := by simp [keysOf]
    omega
  have hmain : sortTablesByDependencies deps = (Except.ok r.1, r.2) := by
    rw [sortTables_unfold, ← hr, if_pos hlen]
  refine ⟨r.1, by rw [hmain], hndsorted,
    fun k => ⟨fun h => hsub k h, fun h => hkeysub k h⟩, horder⟩

/-- Witness for C1: a two-table acyclic tree; `B` depends on `A`. -/
theorem sortTablesByDependencies_topological_witness :
    ∃ sorted,
      (sortTablesByDependencies [("[dbo].[A]", []), ("[dbo].[B]", ["[dbo].[A]"])]).1 =
        Except.ok sorted ∧
      sorted.Nodup ∧
      (∀ k, k ∈ sorted ↔ k ∈ keysOf [("[dbo].[A]", []), ("[dbo].[B]", ["[dbo].[A]"])]) ∧
      OrderOK [("[dbo].[A]", []), ("[dbo].[B]", ["[dbo].[A]"])] sorted :=
  sortTablesByDependencies_topological _ (by decide) (by decide) (by decide)
    (acyclic_of_rank _ (fun s => if s = "[dbo].[B]" then 1 else 0) (by decide))

/-- C3: a dependency tree with a cycle among its keys makes the sorter
return the migration-process error naming the cyclic/incomplete-graph
condition, with no sorted list (the `Except` carries only the error, as
the Go function returns `nil` for the list). -/
theorem sortTablesByDependencies_cycle_error (deps : DependencyTree) (hk : NodupKeys deps)
    (hcyc : ∃ c, Relation.TransGen (edgeOf deps) c c) :
    (sortTablesByDependencies deps).1 =
      Except.error (apperrorsNew ErrCode.ErrMigrateProcess
        ("cyclic dependency or incomplete dependency graph detected")) := by
  obtain ⟨degF, hfin⟩ := kahnLoopF_spec deps hk
    ((initQueue (buildDegrees deps)).length + countPos (buildDegrees deps))
    deps (buildDegrees deps) (initQueue (buildDegrees deps)) [] le_rfl (kahnInv_init deps hk)
  set r := kahnLoopF ((initQueue (buildDegrees deps)).length + countPos (buildDegrees deps))
    deps (buildDegrees deps) (initQueue (buildDegrees deps)) [] with hr
  obtain ⟨hdeq, hnd, hskeys, _, _, _, _, _, horder⟩ := hfin
  have hndsorted : r.1.Nodup := by simpa using hnd
  obtain ⟨c, hcycc⟩ := hcyc
  have hcnot : c ∉ r.1 := fun hc =>
    no_cycle_of_sorted deps r.1 hndsorted horder c hc hcycc
  have hckeys : c ∈ keysOf deps := by
    obtain ⟨b, hedge, _⟩ := Relation.TransGen.head'_iff.mp hcycc
    obtain ⟨ps, hm, _⟩ := hedge
    exact mem_keysOf.mpr ⟨ps, hm⟩
  have hlenlt : r.1.length < deps.length := by
    have hsub2 : ∀ x ∈ r.1, x ∈ (keysOf deps).erase c := by
      intro x hx
      have hxc : x ≠ c := fun h0 => hcnot (h0 ▸ hx)
      exact (List.mem_erase_of_ne hxc).mpr (hskeys x hx)
    have h1 := (hndsorted.subperm hsub2).length_le
    have h2 := List.length_erase_of_mem hckeys
    have h3 : 0 < (keysOf deps).length := List.length_pos.mpr (by
      intro h0
      rw [h0] at hckeys
      simp at hckeys)
    have hkl : (keysOf deps).length = deps.length := by simp [keysOf]
    omega
  rw [sortTables_unfold, ← hr, if_neg (by omega)]

/-- Witness for C3: the two-cycle `A → B → A`. -/
theorem sortTablesByDependencies_cycle_error_witness :
    (sortTablesByDependencies
        [("[dbo].[A]", ["[dbo].[B]"]), ("[dbo].[B]", ["[dbo].[A]"])]).1 =
      Except.error (apperrorsNew ErrCode.ErrMigrateProcess
        ("cyclic dependency or incomplete dependency graph detected")) :=
  sortTablesByDependencies_cycle_error _ (by decide)
    ⟨"[dbo].[A]", by
      have h1 : edgeOf [("[dbo].[A]", ["[dbo].[B]"]), ("[dbo].[B]", ["[dbo].[A]"])]
          ("[dbo].[A]") ("[dbo].[B]") := ⟨["[dbo].[B]"], by decide, by decide⟩
      have h2 : edgeOf [("[dbo].[A]", ["[dbo].[B]"]), ("[dbo].[B]", ["[dbo].[A]"])]
          ("[dbo].[B]") ("[dbo].[A]") := ⟨["[dbo].[A]"], by decide, by decide⟩
      exact Relation.TransGen.head h1 (Relation.TransGen.single h2)⟩

/-- C10: the sorter consumes its argument map (modelled by returning the
final map state): after a successful sort the map is empty, and after a
cycle error it holds exactly the bindings of the unemitted (unsorted)
tables and is nonempty. -/
theorem sortTablesByDependencies_mutates (deps : DependencyTree) (hk : NodupKeys deps) :
    (∀ s, (sortTablesByDependencies deps).1 = Except.ok s →
      (sortTablesByDependencies deps).2 = []) ∧
    (∀ e, (sortTablesByDependencies deps).1 = Except.error e →
      (sortTablesByDependencies deps).2 =
        deps.filter (fun p => decide (p.1 ∉
          (kahnLoopF ((initQueue (buildDegrees deps)).length + countPos (buildDegrees deps))
            deps (buildDegrees deps) (initQueue (buildDegrees deps)) []).1)) ∧
      (sortTablesByDependencies deps).2 ≠ []) := by
  obtain ⟨degF, hfin⟩ := kahnLoopF_spec deps hk
    ((initQueue (buildDegrees deps)).length + countPos (buildDegrees deps))
    deps (buildDegrees deps) (initQueue (buildDegrees deps)) [] le_rfl (kahnInv_init deps hk)
  set r := kahnLoopF ((initQueue (buildDegrees deps)).length + countPos (buildDegrees deps))
    deps (buildDegrees deps) (initQueue (buildDegrees deps)) [] with hr
  obtain ⟨hdeq, hnd, hskeys, _, _, _, _, _, _⟩ := hfin
  have hndsorted : r.1.Nodup := by simpa using hnd
  have hsnd : (sortTablesByDependencies deps).2 = r.2 := by
    rw [sortTables_unfold, ← hr]
    split <;> rfl
  constructor
  · intro s hok
    have hlen : r.1.length = deps.length := by
      by_contra hne
      rw [sortTables_unfold, ← hr, if_neg hne] at hok
      simp at hok
    have hperm : r.1.Perm (keysOf deps) :=
      (hndsorted.subperm (fun x hx => hskeys x hx)).perm_of_length_le
        (by simp [keysOf, hlen])
    rw [hsnd, hdeq]
    rw [List.filter_eq_nil]
    intro p hp
    simp only [decide_eq_true_eq, not_not]
    exact hperm.symm.subset (List.mem_map_of_mem Prod.fst hp)
  · intro e herr
    have hlenne : r.1.length ≠ deps.length := by
      intro heq
      rw [sortTables_unfold, ← hr, if_pos heq] at herr
      simp at herr
    refine ⟨by rw [hsnd, hdeq], ?_⟩
    rw [hsnd, hdeq]
    intro h0
    have hkeysub : ∀ k ∈ keysOf deps, k ∈ r.1 := by
      intro k hk2
      obtain ⟨v, hv⟩ := mem_keysOf.mp hk2
      by_contra hknot
      have hmm : (k, v) ∈ deps.filter (fun p => decide (p.1 ∉ r.1)) :=
        List.mem_filter.mpr ⟨hv, by simp [hknot]⟩
      rw [h0] at hmm
      simp at hmm
    have h1 := (hndsorted.subperm (fun x hx => hskeys x hx)).length_le
    have h2 := ((hk : (keysOf deps).Nodup).subperm (fun x hx => hkeysub x hx)).length_le
    have hkl : (keysOf deps).length = deps.length := by simp [keysOf]
    omega

/-- Witness for C10: the singleton tree sorts fully, leaving the map
empty. -/
theorem sortTablesByDependencies_mutates_witness :
    (sortTablesByDependencies [("[dbo].[A]", ([] : List TableName))]).2 = [] :=
  (sortTablesByDependencies_mutates [("[dbo].[A]", [])] (by decide)).1
    ["[dbo].[A]"] rfl

end GoErdos
